import Mathlib

/-!
Term-wise power-rule integrator (`src/integration.cpp`).

A shallow embedding of the pipeline
`tokenize → splitInfixTerms → infixToPostfix → integrateTerm → tokensToString`
together with theorems about it.

Modelling conventions.

* `std::vector<Token>` is `List Token`; `push_back` appends at the end.
* `std::stack<T>` is a `List T` whose head is the top of the stack.
* `double` is the type `Double` below: IEEE 754 binary64 with round to nearest,
  ties to even, signed zeros, infinities and NaN.  A finite value is kept as its
  sign bit and its exact rational magnitude; every arithmetic result is rounded
  to 53 significant bits, with gradual underflow and overflow to infinity.
  Where the source leaves a choice to the machine, the embedding follows
  x86-64: an invalid operation delivers the NaN with the sign bit set, and an
  operation on a NaN delivers that NaN (the first one, when both operands are).
* Behaviour that is not a normal return is explicit: `Fault.emptyStack` is
  `top()`/`pop()` on an empty `std::stack` (undefined behaviour in C++),
  `Fault.invalidArgument` and `Fault.outOfRange` are the exceptions
  `std::invalid_argument` and `std::out_of_range` thrown by `std::stod`.
* A `char` is a `Char`; the `<cctype>` predicates are those of the "C" locale,
  so every character outside ASCII is in none of the classes.
-/

namespace Integration

/-! ## Data model (lines 13-21) -/

/-- The `Token` struct: its text and the three role flags. -/
structure Token where
  value : String
  isOperator : Bool
  isVariable : Bool
  isNumber : Bool
deriving DecidableEq

/-- An operator token, `Token(s, true, false, false)`. -/
def opTok (s : String) : Token := ⟨s, true, false, false⟩

/-- A variable token, `Token(s, false, true, false)`. -/
def varTok (s : String) : Token := ⟨s, false, true, false⟩

/-- A number token, `Token(s, false, false, true)`. -/
def numTok (s : String) : Token := ⟨s, false, false, true⟩

/-- The token returned for an empty evaluation, `Token("0", false, false, true)`. -/
def zeroToken : Token := numTok "0"

/-- How an evaluation can end other than by returning. -/
inductive Fault where
  /-- A call of `top()` or `pop()` on an empty `std::stack`: undefined behaviour. -/
  | emptyStack
  /-- The call of `std::stod` found no conversion and threw `std::invalid_argument`. -/
  | invalidArgument
  /-- The call of `std::stod` met a range error of `strtod` (overflow, or an
  inexact subnormal result) and threw `std::out_of_range`. -/
  | outOfRange
  /-- A literal using `strtod` syntax the embedding does not cover (sign,
  exponent, hexadecimal, `inf`, `nan`, leading blanks); `tokenize` never
  produces one. -/
  | foreignLiteral
deriving DecidableEq

deriving instance DecidableEq for Except

/-! ## Character classes (`<cctype>`, "C" locale) -/

/-- The `isspace` class: blank, `\t`, `\n`, `\v`, `\f`, `\r`. -/
def isspace (c : Char) : Bool :=
  c.toNat = 32 || (9 ≤ c.toNat && c.toNat ≤ 13)

/-- The `isdigit` class: `0`-`9`. -/
def isdigit (c : Char) : Bool :=
  48 ≤ c.toNat && c.toNat ≤ 57

/-- The `isalpha` class: `A`-`Z` and `a`-`z`. -/
def isalpha (c : Char) : Bool :=
  (65 ≤ c.toNat && c.toNat ≤ 90) || (97 ≤ c.toNat && c.toNat ≤ 122)

/-- The test `isdigit(expr[i]) || expr[i] == '.'` of lines 39 and 41. -/
def isNumberChar (c : Char) : Bool :=
  isdigit c || c = '.'

/-- The test of lines 57-58: one of `^ * / + - ( )`. -/
def isOperatorChar (c : Char) : Bool :=
  c = '^' || c = '*' || c = '/' || c = '+' || c = '-' || c = '(' || c = ')'

/-- The value assigned to `expectUnary` at lines 60-61. -/
def unaryAfter (c : Char) : Bool :=
  c = '(' || c = '+' || c = '-' || c = '*' || c = '/' || c = '^'

/-! ## tokenize (lines 23-70) -/

/-- The scanning loop of `tokenize` from the characters still to read, with the
local variables `current` and `expectUnary`.  `current` is non-empty exactly
while control is inside the inner `while` of lines 41-43; when that loop ends
the Number token is emitted, `expectUnary` becomes false (lines 44-46) and the
outer loop goes on at the same character. -/
def tokenizeFrom : List Char → String → Bool → List Token
  | [], current, _ =>
    if current = "" then [] else [numTok current]
  | c :: cs, current, expectUnary =>
    if current ≠ "" ∧ isNumberChar c then
      tokenizeFrom cs (current.push c) expectUnary
    else
      let emitted := if current = "" then [] else [numTok current]
      let expectUnary := if current = "" then expectUnary else false
      emitted ++
        (if isspace c then tokenizeFrom cs "" expectUnary
         else if expectUnary ∧ (c = '+' ∨ c = '-') then
           opTok (if c = '-' then "u-" else "u+") :: tokenizeFrom cs "" false
         else if isNumberChar c then tokenizeFrom cs (String.singleton c) expectUnary
         else if isalpha c then varTok (String.singleton c) :: tokenizeFrom cs "" false
         else if isOperatorChar c then
           opTok (String.singleton c) :: tokenizeFrom cs "" (unaryAfter c)
         else tokenizeFrom cs "" expectUnary)

/-- The function `tokenize`: `current` starts empty and `expectUnary` true. -/
def tokenize (expr : String) : List Token :=
  tokenizeFrom expr.data "" true

/-! ## infixToPostfix (lines 72-114) -/

/-- The lambda `precedence` (lines 76-82). -/
def precedence (op : String) : Nat :=
  if op = "u-" ∨ op = "u+" then 5
  else if op = "^" then 4
  else if op = "*" ∨ op = "/" then 3
  else if op = "+" ∨ op = "-" then 2
  else 0

/-- The lambda `isRightAssoc` (line 84). -/
def isRightAssoc (op : String) : Bool :=
  op = "^"

/-- The `)` branch (lines 92-96) on `(output, opStack)`: operators are moved
to the output until a `(` is on top, which is popped; an empty stack ends the
loop without an error. -/
def closeParen : List Token → List Token → List Token × List Token
  | output, [] => (output, [])
  | output, top :: opStack =>
    if top.value ≠ "(" then closeParen (output ++ [top]) opStack
    else (output, opStack)

/-- The condition of the `while` of lines 98-101, the stack being non-empty
with `top` on top. -/
def yields (top token : Token) : Bool :=
  top.value ≠ "(" ∧
    (precedence top.value > precedence token.value ∨
      (precedence top.value = precedence token.value ∧ ¬ isRightAssoc token.value))

/-- The last branch (lines 98-105) on `(output, opStack)`: operators that
bind at least as tightly are moved to the output, then `token` is pushed. -/
def pushOperator (token : Token) : List Token → List Token → List Token × List Token
  | output, [] => (output, [token])
  | output, top :: opStack =>
    if yields top token then pushOperator token (output ++ [top]) opStack
    else (output, token :: top :: opStack)

/-- The `for` loop of lines 86-107 followed by the drain of lines 109-113. -/
def infixToPostfixLoop : List Token → List Token → List Token → List Token
  | [], output, opStack => output ++ opStack
  | token :: rest, output, opStack =>
    if ¬ token.isOperator then infixToPostfixLoop rest (output ++ [token]) opStack
    else if token.value = "(" then infixToPostfixLoop rest output (token :: opStack)
    else if token.value = ")" then
      infixToPostfixLoop rest (closeParen output opStack).1 (closeParen output opStack).2
    else
      infixToPostfixLoop rest (pushOperator token output opStack).1
        (pushOperator token output opStack).2

/-- The function `infixToPostfix`: both `output` and `opStack` start empty. -/
def infixToPostfix (tokens : List Token) : List Token :=
  infixToPostfixLoop tokens [] []

/-! ## The type double -/

/-- A value of the type `double`, IEEE 754 binary64: a finite value given by
its sign bit and the exact rational magnitude, an infinity, or a NaN with its
sign bit. -/
inductive Double where
  | finite (negative : Bool) (magnitude : ℚ)
  | infinite (negative : Bool)
  | nan (negative : Bool)
deriving DecidableEq

/-- The nearest integer to `n / d`, ties to the even one. -/
def halfEven (n d : Nat) : Nat :=
  let quo := n / d
  let rem := n % d
  if 2 * rem < d then quo
  else if d < 2 * rem then quo + 1
  else if quo % 2 = 0 then quo else quo + 1

/-- The number of binary digits of `n`, found by at most `fuel` halvings. -/
def bitLengthFrom : Nat → Nat → Nat
  | 0, _ => 0
  | fuel + 1, n => if n = 0 then 0 else bitLengthFrom fuel (n / 2) + 1

/-- The number of binary digits of `n`: the least `k` with `n < 2^k`. -/
def bitLength (n : Nat) : Nat :=
  bitLengthFrom n n

/-- The integer `k` with `2^k ≤ n / d < 2^(k+1)`, for positive `n` and `d`. -/
def floorLog2 (n d : Nat) : Int :=
  let k : Int := (bitLength n : Int) - (bitLength d : Int)
  if d * 2 ^ k.toNat ≤ n * 2 ^ (-k).toNat then k else k - 1

/-- The power `2^e` for an integer exponent, as a quotient of two natural
powers. -/
def twoPow (e : Int) : ℚ :=
  ((2 ^ e.toNat : ℕ) : ℚ) / ((2 ^ (-e).toNat : ℕ) : ℚ)

/-- The integer nearest to `q / 2^e`, ties to the even one, for `q ≥ 0`. -/
def scaledHalfEven (e : Int) (q : ℚ) : Nat :=
  halfEven (q.num.natAbs * 2 ^ (-e).toNat) (q.den * 2 ^ e.toNat)

/-- The multiple of `2^e` nearest to `q ≥ 0`, ties to the even multiple. -/
def nearestMultiple (e : Int) (q : ℚ) : ℚ :=
  (scaledHalfEven e q : ℚ) * twoPow e

/-- The exponent of the last place of the binary64 values around `q > 0`: 53
significant bits, and not below the subnormal spacing `2^(-1074)`. -/
def lastPlace (q : ℚ) : Int :=
  max (floorLog2 q.num.natAbs q.den - 52) (-1074)

/-- Round to nearest, ties to even, of the magnitude `q ≥ 0` in binary64
precision with an unbounded exponent range above. -/
def roundMagnitude (q : ℚ) : ℚ :=
  if q = 0 then 0 else nearestMultiple (lastPlace q) q

/-- The first power of two beyond the finite binary64 values. -/
def overflowThreshold : ℚ := ((2 ^ 1024 : ℕ) : ℚ)

/-- The binary64 result for the sign and the exact magnitude `q ≥ 0`. -/
def Double.round (negative : Bool) (q : ℚ) : Double :=
  if roundMagnitude q < overflowThreshold then Double.finite negative (roundMagnitude q)
  else Double.infinite negative

/-- The NaN that an invalid operation delivers: its sign bit is set (x86-64). -/
def Double.invalid : Double := Double.nan true

/-- The value `0.0`. -/
def Double.zero : Double := Double.finite false 0

/-- The value `1.0`. -/
def Double.one : Double := Double.finite false 1

/-- The unary minus: the sign bit is flipped. -/
def Double.neg : Double → Double
  | Double.finite s m => Double.finite (!s) m
  | Double.infinite s => Double.infinite (!s)
  | Double.nan s => Double.nan (!s)

/-- The product `x * y`: the exact product of two finite operands, rounded. -/
def Double.mul : Double → Double → Double
  | Double.nan s, _ => Double.nan s
  | _, Double.nan s => Double.nan s
  | Double.infinite s, Double.infinite t => Double.infinite (s != t)
  | Double.infinite s, Double.finite t b =>
    if b = 0 then Double.invalid else Double.infinite (s != t)
  | Double.finite s a, Double.infinite t =>
    if a = 0 then Double.invalid else Double.infinite (s != t)
  | Double.finite s a, Double.finite t b => Double.round (s != t) (a * b)

/-- The quotient `x / y`: a non-zero value over zero is an infinity, zero over
zero and infinity over infinity are invalid. -/
def Double.div : Double → Double → Double
  | Double.nan s, _ => Double.nan s
  | _, Double.nan s => Double.nan s
  | Double.infinite _, Double.infinite _ => Double.invalid
  | Double.infinite s, Double.finite t _ => Double.infinite (s != t)
  | Double.finite s _, Double.infinite t => Double.finite (s != t) 0
  | Double.finite s a, Double.finite t b =>
    if b = 0 then (if a = 0 then Double.invalid else Double.infinite (s != t))
    else Double.round (s != t) (a / b)

/-- The signed exact value of a finite double. -/
def signedValue (negative : Bool) (magnitude : ℚ) : ℚ :=
  if negative then -magnitude else magnitude

/-- The sum `x + y`: an exact sum of zero is `+0.0` unless both operands are
negative. -/
def Double.add : Double → Double → Double
  | Double.nan s, _ => Double.nan s
  | _, Double.nan s => Double.nan s
  | Double.infinite s, Double.infinite t => if s = t then Double.infinite s else Double.invalid
  | Double.infinite s, Double.finite _ _ => Double.infinite s
  | Double.finite _ _, Double.infinite t => Double.infinite t
  | Double.finite s a, Double.finite t b =>
    if signedValue s a + signedValue t b = 0 then Double.finite (s && t) 0
    else Double.round (decide (signedValue s a + signedValue t b < 0))
      |signedValue s a + signedValue t b|

instance : Neg Double := ⟨Double.neg⟩
instance : Mul Double := ⟨Double.mul⟩
instance : Div Double := ⟨Double.div⟩
instance : Add Double := ⟨Double.add⟩
/-- A numeral stands for the double nearest to it. -/
instance (n : Nat) : OfNat Double n := ⟨Double.round false n⟩

/-! ## formatNumber (lines 116-124) -/

/-- The last `width` decimal digits of `n`, most significant first. -/
def fixedDigits : Nat → Nat → List Char
  | 0, _ => []
  | width + 1, n => fixedDigits width (n / 10) ++ [Nat.digitChar (n % 10)]

/-- The nearest integer to `q * 10^6` for `q ≥ 0`, ties to even: the digits
that a correctly rounded `%.6f` prints for the exact magnitude `q`. -/
def scaled6 (q : ℚ) : Nat :=
  halfEven (q.num.natAbs * 10 ^ 6) q.den

/-- The text written in fixed notation with six decimals for a finite value,
from its sign bit and its scaled magnitude. -/
def fixedText (negative : Bool) (scaled : Nat) : List Char :=
  (if negative then ['-'] else []) ++ Nat.toDigits 10 (scaled / 10 ^ 6) ++ ['.'] ++
    fixedDigits 6 (scaled % 10 ^ 6)

/-- The text written by `oss.precision(6); oss << fixed << num` (lines
118-120): the fixed notation of a finite value, `inf` or `nan`, after the sign
bit. -/
def streamText : Double → List Char
  | Double.finite s m => fixedText s (scaled6 m)
  | Double.infinite s => (if s then ['-'] else []) ++ ['i', 'n', 'f']
  | Double.nan s => (if s then ['-'] else []) ++ ['n', 'a', 'n']

/-- Line 121: `result.erase(result.find_last_not_of('0') + 1, npos)`. -/
def eraseTrailingZeros (s : List Char) : List Char :=
  (s.reverse.dropWhile (fun c => c = '0')).reverse

/-- Line 122: `if (result.back() == '.') result.pop_back()`. -/
def popTrailingDot (s : List Char) : List Char :=
  if s.getLast? = some '.' then s.dropLast else s

/-- Lines 121-123 applied to the text of the stream. -/
def trimFixed (s : List Char) : String :=
  String.mk (popTrailingDot (eraseTrailingZeros s))

/-- The function `formatNumber`. -/
def formatNumber (num : Double) : String :=
  trimFixed (streamText num)

/-! ## splitInfixTerms (lines 126-156) -/

/-- The synthesized sign token of line 141, `Token("u-", true, false, false)`. -/
def unaryMinus : Token := opTok "u-"

/-- Lines 134-139 and 150-153: a non-empty `currentTerm` is appended to
`terms`, prefixed with `currentSign`. -/
def flushTerm (terms : List (List Token)) (currentTerm currentSign : List Token) :
    List (List Token) :=
  if currentTerm.isEmpty then terms else terms ++ [currentSign ++ currentTerm]

/-- The loop of lines 131-148 followed by the final flush of lines 150-155,
with the local variables `terms`, `currentTerm` and `currentSign`.  After a
boundary token `currentTerm` is empty (cleared at line 137, or empty before). -/
def splitInfixTermsLoop :
    List Token → List (List Token) → List Token → List Token → List (List Token)
  | [], terms, currentTerm, currentSign => flushTerm terms currentTerm currentSign
  | token :: rest, terms, currentTerm, currentSign =>
    if token.value = "+" ∨ token.value = "-" then
      splitInfixTermsLoop rest (flushTerm terms currentTerm currentSign) []
        (if token.value = "-" then [unaryMinus] else [])
    else
      splitInfixTermsLoop rest terms (currentTerm ++ [token]) currentSign

/-- The function `splitInfixTerms`. -/
def splitInfixTerms (tokens : List Token) : List (List Token) :=
  splitInfixTermsLoop tokens [] [] []

/-! ## std::stod on the literals of the tokenizer -/

/-- The number written by a run of decimal digits. -/
def digitsValue (ds : List Char) : Nat :=
  ds.foldl (fun acc c => 10 * acc + (c.toNat - 48)) 0

/-- The fraction digits that `strtod` reads after the integer digits: those
following a `.`, if the rest starts with one. -/
def fractionDigits : List Char → List Char
  | '.' :: rest => rest.takeWhile isdigit
  | _ => []

/-- The exact value of the decimal numeral `whole . frac`. -/
def decimalValue (whole frac : List Char) : ℚ :=
  (digitsValue whole : ℚ) + (digitsValue frac : ℚ) / ((10 ^ frac.length : ℕ) : ℚ)

/-- The smallest positive normal binary64 value, `2^(-1022)`. -/
def minNormal : ℚ := 1 / ((2 ^ 1022 : ℕ) : ℚ)

/-- Whether `strtod` reports a range error for the exact value `q ≥ 0`: the
result overflows, or it is tiny (below `2^(-1022)` even when rounded with an
unbounded exponent range) and inexact. -/
def rangeError (q : ℚ) : Bool :=
  decide (overflowThreshold ≤ roundMagnitude q) ||
    (decide (q ≠ 0) &&
      decide (nearestMultiple (floorLog2 q.num.natAbs q.den - 52) q < minNormal) &&
      decide (roundMagnitude q ≠ q))

/-- The call `stod(token.value)` of line 165.  On a text made of digits and
`.` only, `strtod` converts the longest prefix of the form `digits [. digits]`
holding at least one digit to the nearest double; `stod` throws
`std::invalid_argument` when there is no such prefix and `std::out_of_range`
when `strtod` reports a range error. -/
def stod (text : String) : Except Fault Double :=
  if text.data.all isNumberChar then
    let whole := text.data.takeWhile isdigit
    let frac := fractionDigits (text.data.dropWhile isdigit)
    if whole.isEmpty ∧ frac.isEmpty then Except.error Fault.invalidArgument
    else if rangeError (decimalValue whole frac) then Except.error Fault.outOfRange
    else Except.ok (Double.finite false (roundMagnitude (decimalValue whole frac)))
  else Except.error Fault.foreignLiteral

/-! ## integrateTerm (lines 158-240) -/

/-- The call `top()` of a `std::stack`. -/
def top {α : Type} : List α → Except Fault α
  | [] => Except.error Fault.emptyStack
  | a :: _ => Except.ok a

/-- The call `pop()` of a `std::stack`. -/
def pop {α : Type} : List α → Except Fault (List α)
  | [] => Except.error Fault.emptyStack
  | _ :: s => Except.ok s

/-- The expression `token.value[0]`: the terminating NUL of an empty string. -/
def firstChar (s : String) : Char :=
  match s.data with
  | [] => Char.ofNat 0
  | c :: _ => c

/-- Lines 223-239: the power rule on the final `(coeff, exponent, hasVar)`. -/
def powerRule (var : Char) (coeff exponent : Double) (hasVar : Bool) : List Token :=
  if !hasVar then
    [⟨formatNumber coeff ++ "*" ++ String.singleton var, false, false, false⟩]
  else
    let newExp := exponent + Double.one
    let newCoeff := coeff / newExp
    [numTok (formatNumber newCoeff), opTok "*", opTok "(",
      varTok (String.singleton var), opTok "^", numTok (formatNumber newExp), opTok ")"]

/-- The loop of lines 163-216 followed by lines 218-239, with the three
stacks `coeffStack`, `expStack` and `varStack`. -/
def integrateTermLoop (var : Char) :
    List Token → List Double → List Double → List Bool → Except Fault (List Token)
  | [], coeffStack, expStack, varStack =>
    if coeffStack.isEmpty then Except.ok [zeroToken]
    else do
      let coeff ← top coeffStack
      let exponent ← top expStack
      let hasVar ← top varStack
      Except.ok (powerRule var coeff exponent hasVar)
  | token :: rest, coeffStack, expStack, varStack =>
    if token.isNumber then do
      let v ← stod token.value
      integrateTermLoop var rest (v :: coeffStack) (Double.zero :: expStack) (false :: varStack)
    else if token.isVariable ∧ firstChar token.value = var then
      integrateTermLoop var rest (Double.one :: coeffStack) (Double.one :: expStack)
        (true :: varStack)
    else if token.value = "u-" then
      if coeffStack.isEmpty then Except.ok [zeroToken]
      else do
        let coeff ← top coeffStack
        let coeffStack ← pop coeffStack
        integrateTermLoop var rest ((-coeff) :: coeffStack) expStack varStack
    else if token.value = "u+" then
      integrateTermLoop var rest coeffStack expStack varStack
    else if token.isOperator then
      if token.value = "*" then do
        let c2 ← top coeffStack
        let coeffStack ← pop coeffStack
        let e2 ← top expStack
        let expStack ← pop expStack
        let v2 ← top varStack
        let varStack ← pop varStack
        let c1 ← top coeffStack
        let coeffStack ← pop coeffStack
        let e1 ← top expStack
        let expStack ← pop expStack
        let v1 ← top varStack
        let varStack ← pop varStack
        integrateTermLoop var rest ((c1 * c2) :: coeffStack) ((e1 + e2) :: expStack)
          ((v1 || v2) :: varStack)
      else if token.value = "^" then do
        let exponent ← top coeffStack
        let coeffStack ← pop coeffStack
        let expStack ← pop expStack
        let varStack ← pop varStack
        let base ← top coeffStack
        let coeffStack ← pop coeffStack
        let _ ← top expStack
        let expStack ← pop expStack
        let _ ← top varStack
        let varStack ← pop varStack
        integrateTermLoop var rest (base :: coeffStack) (exponent :: expStack)
          (true :: varStack)
      else if token.value = "/" then do
        let denominator ← top coeffStack
        let coeffStack ← pop coeffStack
        let _ ← top expStack
        let expStack ← pop expStack
        let _ ← top varStack
        let varStack ← pop varStack
        let numerator ← top coeffStack
        let coeffStack ← pop coeffStack
        let eNumerator ← top expStack
        let expStack ← pop expStack
        let vNumerator ← top varStack
        let varStack ← pop varStack
        integrateTermLoop var rest ((numerator / denominator) :: coeffStack)
          (eNumerator :: expStack) (vNumerator :: varStack)
      else integrateTermLoop var rest coeffStack expStack varStack
    else integrateTermLoop var rest coeffStack expStack varStack

/-- The function `integrateTerm`: the three stacks start empty. -/
def integrateTerm (termPostfix : List Token) (var : Char) : Except Fault (List Token) :=
  integrateTermLoop var termPostfix [] [] []

/-! ## tokensToString (lines 242-250) -/

/-- The loop of lines 244-248 from position `i`, `previous` being
`tokens[i - 1]` (absent when `i = 0`). -/
def tokensToStringFrom : Option Token → List Token → String
  | _, [] => ""
  | previous, token :: rest =>
    (if token.isNumber ∧ (previous.map Token.isVariable = some true) then "*" else "") ++
      token.value ++ tokensToStringFrom (some token) rest

/-- The function `tokensToString`. -/
def tokensToString (tokens : List Token) : String :=
  tokensToStringFrom none tokens

/-! ## integrateExpression (lines 252-282) -/

/-- Line 257: `!terms[i].empty() && terms[i][0].value == "u-"`. -/
def isNegativeTerm : List Token → Bool
  | [] => false
  | t :: _ => t.value = "u-"

/-- Lines 268-272: the separator appended to `result` before a term. -/
def signFor (isNegative : Bool) (result : List Token) : List Token :=
  if isNegative then [opTok "-"]
  else if !result.isEmpty then [opTok "+"]
  else []

/-- The loop of lines 256-275 over `terms`, followed by lines 277-281. -/
def integrateExpressionLoop (var : Char) :
    List (List Token) → List Token → Except Fault (List Token)
  | [], result => Except.ok (if result.isEmpty then [zeroToken] else result)
  | term :: terms, result => do
    let isNegative := isNegativeTerm term
    let termTokens := if isNegative then term.drop 1 else term
    let termPostfix := infixToPostfix termTokens
    let integrated ← integrateTerm termPostfix var
    if integrated.isEmpty then integrateExpressionLoop var terms result
    else integrateExpressionLoop var terms (result ++ signFor isNegative result ++ integrated)

/-- The function `integrateExpression`. -/
def integrateExpression (infixTokens : List Token) (var : Char) : Except Fault (List Token) :=
  integrateExpressionLoop var (splitInfixTerms infixTokens) []

/-- The text printed by `main` between `" = "` and `" + C"` for the input
line `expr` (lines 289-294), `var` being `x`. -/
def render (expr : String) : Except Fault String :=
  (integrateExpression (tokenize expr) 'x').map tokensToString

/-! ## Expression trees and their two linearisations

The reference notions against which `infixToPostfix` is compared: they follow
the usual definitions and are not taken from the program. -/

/-- The unary operators. -/
inductive UnaryOp where
  | neg
  | pos

/-- The binary operators. -/
inductive BinaryOp where
  | add
  | sub
  | mul
  | div
  | pow

/-- The operator token of a unary operator, as `tokenize` emits it. -/
def UnaryOp.token : UnaryOp → Token
  | UnaryOp.neg => opTok "u-"
  | UnaryOp.pos => opTok "u+"

/-- The operator token of a binary operator, as `tokenize` emits it. -/
def BinaryOp.token : BinaryOp → Token
  | BinaryOp.add => opTok "+"
  | BinaryOp.sub => opTok "-"
  | BinaryOp.mul => opTok "*"
  | BinaryOp.div => opTok "/"
  | BinaryOp.pow => opTok "^"

/-- An expression tree over operand tokens (any token that is not an
operator, given by its text and its two other flags). -/
inductive Expr where
  | operand (value : String) (isVariable isNumber : Bool)
  | unary (op : UnaryOp) (arg : Expr)
  | binary (op : BinaryOp) (lhs rhs : Expr)

/-- The fully parenthesized rendering: every compound node is wrapped in a
pair of parentheses. -/
def Expr.parenthesized : Expr → List Token
  | Expr.operand v isVar isNum => [⟨v, false, isVar, isNum⟩]
  | Expr.unary op e => opTok "(" :: op.token :: (e.parenthesized ++ [opTok ")"])
  | Expr.binary op l r =>
    opTok "(" :: (l.parenthesized ++ op.token :: (r.parenthesized ++ [opTok ")"]))

/-- The post-order traversal: operands in order, each operator after its
operands. -/
def Expr.postOrder : Expr → List Token
  | Expr.operand v isVar isNum => [⟨v, false, isVar, isNum⟩]
  | Expr.unary op e => e.postOrder ++ [op.token]
  | Expr.binary op l r => l.postOrder ++ r.postOrder ++ [op.token]

/-! ## Parentheses left open -/

/-- An operator token `(`. -/
def isOpenParen (t : Token) : Bool :=
  t.isOperator && t.value = "("

/-- An operator token `)`. -/
def isCloseParen (t : Token) : Bool :=
  t.isOperator && t.value = ")"

/-- The number of `(` tokens still open after `tokens`, `depth` being open
before: a `)` closes the innermost open one, or nothing when none is open. -/
def unclosedFrom : List Token → Nat → Nat
  | [], depth => depth
  | t :: rest, depth =>
    if isOpenParen t then unclosedFrom rest (depth + 1)
    else if isCloseParen t then unclosedFrom rest (depth - 1)
    else unclosedFrom rest depth

/-- The number of `(` tokens of `tokens` that no later `)` closes. -/
def unclosed (tokens : List Token) : Nat :=
  unclosedFrom tokens 0

/-- The text of a token is neither `+` nor `-`: it is no term boundary. -/
def NoBoundary (tokens : List Token) : Prop :=
  ∀ t ∈ tokens, t.value ≠ "+" ∧ t.value ≠ "-"

instance (tokens : List Token) : Decidable (NoBoundary tokens) := by
  unfold NoBoundary; infer_instance

/-! ## Constant terms -/

/-- A constant term: Number literals combined with `*`, `/` and unary signs. -/
inductive ConstTerm where
  | number (text : String)
  | neg (arg : ConstTerm)
  | pos (arg : ConstTerm)
  | mul (lhs rhs : ConstTerm)
  | div (lhs rhs : ConstTerm)

/-- The value of a constant term, operands left to right; a literal on which
`stod` throws leaves it undefined. -/
def ConstTerm.value : ConstTerm → Except Fault Double
  | ConstTerm.number text => stod text
  | ConstTerm.neg a => do
    let v ← a.value
    Except.ok (-v)
  | ConstTerm.pos a => a.value
  | ConstTerm.mul l r => do
    let a ← l.value
    let b ← r.value
    Except.ok (a * b)
  | ConstTerm.div l r => do
    let a ← l.value
    let b ← r.value
    Except.ok (a / b)

/-- The state of the loop of `infixToPostfix`: no parenthesis operator in the
output, only operators other than `)` on the stack, `depth` of them `(`. -/
def ParenInv (output opStack : List Token) (depth : Nat) : Prop :=
  (∀ t ∈ output, isOpenParen t = false ∧ isCloseParen t = false) ∧
  (∀ t ∈ opStack, t.isOperator = true ∧ t.value ≠ ")") ∧
  opStack.countP isOpenParen = depth

/-- The texts of the binary operators. -/
def binaryTexts : List String := ["+", "-", "*", "/", "^"]

/-! ## Notions used by the claims on tokens, terms and formatting -/

/-- The test of line 245 on two neighbours: a Variable token right before a
Number token. -/
def variableThenNumber (a b : Token) : Bool :=
  a.isVariable && b.isNumber

/-- No token of the sequence stands right after a token it is related to. -/
def noAdjacent (r : Token → Token → Bool) : List Token → Bool
  | a :: b :: rest => !r a b && noAdjacent r (b :: rest)
  | _ => true

/-- The texts of the tokens, one after the other. -/
def concatTexts : List Token → String
  | [] => ""
  | t :: rest => t.value ++ concatTexts rest

/-- A token that `splitInfixTerms` does not copy into a term body: a boundary
`+` or `-`. -/
def isBoundary (t : Token) : Bool :=
  t.value = "+" || t.value = "-"

/-- A token with the text `u-`. -/
def isUnaryMinusText (t : Token) : Bool :=
  t.value = "u-"

/-- A token that is no operator: a Number or a Variable. -/
def isOperand (t : Token) : Bool :=
  !t.isOperator

/-- An operator token other than a parenthesis. -/
def isPlainOperator (t : Token) : Bool :=
  t.isOperator && (t.value ≠ "(" && t.value ≠ ")")

/-- The part of the fixed rendering before the decimal point: the sign and the
integer digits. -/
def wholeText (negative : Bool) (scaled : Nat) : List Char :=
  (if negative then ['-'] else []) ++ Nat.toDigits 10 (scaled / 10 ^ 6)

/-- The six digits of the fixed rendering after the decimal point. -/
def fractionText (scaled : Nat) : List Char :=
  fixedDigits 6 (scaled % 10 ^ 6)

/-- The fixed rendering without its trailing fractional zeros and, when no
fractional digit is left, without its decimal point. -/
def shortText (negative : Bool) (scaled : Nat) : List Char :=
  if eraseTrailingZeros (fractionText scaled) = [] then wholeText negative scaled
  else wholeText negative scaled ++ '.' :: eraseTrailingZeros (fractionText scaled)

/-- The number that a text of the form `digits [. digits]` writes, read with
`digitsValue` as `strtod` reads a literal, before any rounding. -/
def readBack (text : List Char) : ℚ :=
  decimalValue (text.takeWhile isdigit) (fractionDigits (text.dropWhile isdigit))

/-- The conversion of an integer to `double`. -/
def Double.ofInt (n : Int) : Double :=
  Double.round (decide (n < 0)) (n.natAbs : ℚ)

/-- A unary-sign token: its text is `u-` or `u+`. -/
def isUnarySign (t : Token) : Bool :=
  t.value = "u-" || t.value = "u+"

/-- Two unary-sign tokens in a row. -/
def bothUnary (a b : Token) : Bool :=
  isUnarySign a && isUnarySign b

/-- The text accumulated in `current` holds digits and `.` only. -/
def NumText (current : String) : Prop :=
  ∀ ch ∈ current.data, isNumberChar ch = true

/-- Whether a sign is read as unary after the token emitted last, if any:
at the start, and after one of the operator tokens `(`, `+`, `-`, `*`, `/`,
`^`. -/
def expectsUnaryAfter : Option Token → Bool
  | none => true
  | some t =>
    t.isOperator && (t.value = "(" || t.value = "+" || t.value = "-" || t.value = "*" ||
      t.value = "/" || t.value = "^")

/-- The value of `expectUnary` once `tokens` have been emitted from a state
where it was `eu`. -/
def flagAfter (tokens : List Token) (eu : Bool) : Bool :=
  match tokens.getLast? with
  | none => eu
  | some t => expectsUnaryAfter (some t)

/-- A character that `tokenize` does not skip: a digit, `.`, a letter or one
of `^ * / + - ( )`. -/
def isRecognized (c : Char) : Bool :=
  isNumberChar c || isalpha c || isOperatorChar c

/-- The text of a token as it stood in the input: `u-` is `-` and `u+` is `+`. -/
def writtenBack (text : String) : String :=
  if text = "u-" then "-" else if text = "u+" then "+" else text

/-- The token with its text written back. -/
def plainSign (t : Token) : Token :=
  ⟨writtenBack t.value, t.isOperator, t.isVariable, t.isNumber⟩

/-- The characters of the written-back texts of the tokens, in order. -/
def sourceText (tokens : List Token) : List Char :=
  (tokens.map (fun t => (writtenBack t.value).data)).flatten

/-- The lexemes of an input, read off its characters: each maximal run of
digits and `.` is one Number token, each letter one Variable token, each of
`^ * / + - ( )` one Operator token, and every other character is dropped. -/
def lexemes : List Char → List Token
  | [] => []
  | c :: cs =>
    if isNumberChar c then
      numTok (String.mk (c :: cs.takeWhile isNumberChar)) ::
        lexemes (cs.dropWhile isNumberChar)
    else if isalpha c then varTok (String.singleton c) :: lexemes cs
    else if isOperatorChar c then opTok (String.singleton c) :: lexemes cs
    else lexemes cs
termination_by cs => cs.length
decreasing_by
  all_goals simp_wf
  · exact Nat.lt_succ_of_le (List.dropWhile_sublist isNumberChar).length_le

/-- The tokens of the terms with their signs recovered: a binary `-` in place
of the leading `u-` of a term, a binary `+` in front of every other term
except the first. -/
def rejoinFrom (first : Bool) : List (List Token) → List Token
  | [] => []
  | term :: rest =>
    (if isNegativeTerm term then opTok "-" :: term.drop 1
     else if first then term
     else opTok "+" :: term) ++ rejoinFrom false rest

/-- The terms rejoined, starting with the first. -/
def rejoin (terms : List (List Token)) : List Token :=
  rejoinFrom true terms

/-- A term that begins with a `u-` begins with the operator token `u-` and
holds at least one more token. -/
def signHasOperand : List Token → Bool
  | [] => true
  | t :: rest => if t.value = "u-" then decide (t = unaryMinus) && !rest.isEmpty else true

/-- A term as `splitInfixTerms` returns it, whose sign has an operand. -/
def WellFormedTerm (term : List Token) : Prop :=
  NoBoundary term ∧ term ≠ [] ∧ signHasOperand term = true

/-! ## Theorems -/

/-- The quotient of natural powers is the power `2^e`. -/
theorem twoPow_eq (e : Int) : twoPow e = (2 : ℚ) ^ e := by
  cases e with
  | ofNat k =>
    have h1 : (Int.ofNat k).toNat = k := rfl
    have h2 : (-(Int.ofNat k)).toNat = 0 := by
      apply Int.toNat_eq_zero.mpr
      have : (0 : Int) ≤ Int.ofNat k := Int.ofNat_nonneg k
      omega
    simp [twoPow, h1, h2]
  | negSucc k =>
    have h1 : (Int.negSucc k).toNat = 0 := rfl
    have h2 : (-(Int.negSucc k)).toNat = k + 1 := rfl
    simp only [twoPow, h1, h2, pow_zero, Nat.cast_one, Nat.cast_pow, Nat.cast_ofNat]
    rw [Int.negSucc_eq, zpow_neg, one_div]
    norm_cast

/-- A power of two is positive. -/
theorem twoPow_pos (e : Int) : 0 < twoPow e := by
  rw [twoPow_eq]; positivity

/-- The numerator of a non-negative rational is its own absolute value. -/
theorem natAbs_num_cast (q : ℚ) (hq : 0 ≤ q) : ((q.num.natAbs : ℕ) : ℚ) = (q.num : ℚ) := by
  have h : 0 ≤ q.num := Rat.num_nonneg.mpr hq
  rw [Nat.cast_natAbs, abs_of_nonneg h]

/-- A non-negative rational is the quotient of the naturals it is made of. -/
theorem rat_eq_natAbs_div (q : ℚ) (hq : 0 ≤ q) :
    ((q.num.natAbs : ℕ) : ℚ) / ((q.den : ℕ) : ℚ) = q := by
  rw [natAbs_num_cast q hq]
  exact Rat.num_div_den q

/-- An exact quotient is its own nearest integer. -/
theorem halfEven_exact (K D : Nat) (hD : 0 < D) : halfEven (K * D) D = K := by
  simp [halfEven, Nat.mul_div_cancel _ hD, Nat.mul_mod_left, hD]

/-- The nearest multiple, written with the power `2^e`. -/
theorem nearestMultiple_eq (e : Int) (q : ℚ) :
    nearestMultiple e q = (scaledHalfEven e q : ℚ) * (2 : ℚ) ^ e := by
  rw [nearestMultiple, twoPow_eq]

/-- A rounded magnitude is not negative. -/
theorem roundMagnitude_nonneg (q : ℚ) : 0 ≤ roundMagnitude q := by
  unfold roundMagnitude
  split
  · exact le_refl _
  · rw [nearestMultiple_eq]; positivity

/-- The literal `0.0` is the value `Double.zero`. -/
theorem double_zero_eq : (0 : Double) = Double.zero := by decide!

/-- C4, at the failing input. On the postfix sequence `[*]` of `tokenize "*"`
the `*` branch calls `top()` on the empty coefficient stack: the evaluation
ends in undefined behaviour and not with the token `0`, which only the `u-`
branch returns on an empty stack. -/
theorem star_reads_empty_stack :
    infixToPostfix (tokenize "*") = [opTok "*"] ∧
    integrateTerm (infixToPostfix (tokenize "*")) 'x' = Except.error Fault.emptyStack ∧
    integrateTerm [opTok "u-"] 'x' = Except.ok [zeroToken] := by
  refine ⟨by decide, by decide, by decide⟩

/-- C5, at the failing input. The input `.` is tokenized to the Number token
`.`, on which `stod` throws, and so does `integrateExpression`. -/
theorem lone_dot_throws :
    tokenize "." = [numTok "."] ∧
    stod "." = Except.error Fault.invalidArgument ∧
    integrateExpression (tokenize ".") 'x' = Except.error Fault.invalidArgument := by
  refine ⟨by decide, by decide!, by decide!⟩

/-! ### splitInfixTerms -/

/-- A sequence has no boundary when its head and its tail have none. -/
theorem noBoundary_cons {t : Token} {ts : List Token} :
    NoBoundary (t :: ts) ↔ (t.value ≠ "+" ∧ t.value ≠ "-") ∧ NoBoundary ts := by
  simp [NoBoundary]

/-- Tokens that are no boundary are moved to `currentTerm`. -/
theorem splitLoop_noBoundary (A : List Token) (hA : NoBoundary A) (rest : List Token)
    (terms : List (List Token)) (currentTerm currentSign : List Token) :
    splitInfixTermsLoop (A ++ rest) terms currentTerm currentSign
      = splitInfixTermsLoop rest terms (currentTerm ++ A) currentSign := by
  induction A generalizing currentTerm with
  | nil => simp
  | cons a A ih =>
    obtain ⟨⟨h1, h2⟩, hA'⟩ := noBoundary_cons.mp hA
    simp [splitInfixTermsLoop, h1, h2, ih hA']

/-- Flushing a non-empty term appends it with its sign. -/
theorem flushTerm_of_ne_nil (terms : List (List Token)) {currentTerm : List Token}
    (h : currentTerm ≠ []) (currentSign : List Token) :
    flushTerm terms currentTerm currentSign = terms ++ [currentSign ++ currentTerm] := by
  cases currentTerm with
  | nil => exact absurd rfl h
  | cons a l => simp [flushTerm]

/-- A sequence without boundary is one term, or none when it is empty. -/
theorem split_noBoundary (A : List Token) (hA : NoBoundary A) :
    splitInfixTerms A = if A = [] then [] else [A] := by
  have h := splitLoop_noBoundary A hA [] [] [] []
  simp only [List.append_nil, List.nil_append] at h
  rw [splitInfixTerms, h, splitInfixTermsLoop]
  cases A with
  | nil => simp [flushTerm]
  | cons a l => simp [flushTerm]

/-- Two runs without boundary around one boundary token `s`. -/
theorem split_two (A B : List Token) (s : Token) (hA : NoBoundary A) (hB : NoBoundary B)
    (hAne : A ≠ []) (hBne : B ≠ []) (hs : s.value = "+" ∨ s.value = "-") :
    splitInfixTerms (A ++ [s] ++ B)
      = [A, (if s.value = "-" then [unaryMinus] else []) ++ B] := by
  rw [splitInfixTerms, List.append_assoc, splitLoop_noBoundary A hA]
  simp only [List.nil_append, List.singleton_append]
  rw [splitInfixTermsLoop, if_pos hs]
  have h := splitLoop_noBoundary B hB [] (flushTerm [] A []) []
    (if s.value = "-" then [unaryMinus] else [])
  simp only [List.append_nil, List.nil_append] at h
  rw [h, splitInfixTermsLoop, flushTerm_of_ne_nil _ hAne, flushTerm_of_ne_nil _ hBne]
  simp

/-- Counterexample to C9. The empty sequence has no boundary token and yields
no term. -/
theorem split_empty_has_no_term :
    NoBoundary [] ∧ (splitInfixTerms []).length = 0 := by
  refine ⟨by decide, by decide⟩

/-- C9, amended. A non-empty token sequence without a boundary token (no text
`+` or `-`) is returned as exactly one term, the sequence itself; the empty
sequence yields no term. -/
theorem split_noBoundary_single (tokens : List Token) (h : NoBoundary tokens)
    (hne : tokens ≠ []) :
    splitInfixTerms tokens = [tokens] ∧ (splitInfixTerms tokens).length = 1 ∧
    splitInfixTerms [] = [] := by
  rw [split_noBoundary tokens h, if_neg hne]
  exact ⟨rfl, rfl, by decide⟩

/-- The term `6*x` is returned whole. -/
theorem split_noBoundary_single_witness :
    NoBoundary (tokenize "6*x") ∧ tokenize "6*x" ≠ [] ∧
    splitInfixTerms (tokenize "6*x") = [tokenize "6*x"] ∧
    (splitInfixTerms (tokenize "6*x")).length = 1 ∧
    splitInfixTerms [] = [] :=
  ⟨by decide, by decide, split_noBoundary_single (tokenize "6*x") (by decide) (by decide)⟩

/-- C10. Sign capture: for non-empty `A` and `B` without `+`/`-` tokens, a
boundary token `-` between them gives the terms `[A, u- :: B]` and a boundary
token `+` gives `[A, B]`. -/
theorem split_sign_capture (A B : List Token) (minus plus : Token)
    (hA : NoBoundary A) (hB : NoBoundary B) (hAne : A ≠ []) (hBne : B ≠ [])
    (hminus : minus.value = "-") (hplus : plus.value = "+") :
    splitInfixTerms (A ++ [minus] ++ B) = [A, unaryMinus :: B] ∧
    splitInfixTerms (A ++ [plus] ++ B) = [A, B] := by
  constructor
  · rw [split_two A B minus hA hB hAne hBne (Or.inr hminus), if_pos hminus]
    rfl
  · have hne : plus.value ≠ "-" := by rw [hplus]; decide
    rw [split_two A B plus hA hB hAne hBne (Or.inl hplus), if_neg hne]
    rfl

/-- Sign capture on `6*x-7` and `6*x+7`. -/
theorem split_sign_capture_witness :
    splitInfixTerms ([numTok "6", opTok "*", varTok "x"] ++ [opTok "-"] ++ [numTok "7"])
      = [[numTok "6", opTok "*", varTok "x"], unaryMinus :: [numTok "7"]] ∧
    splitInfixTerms ([numTok "6", opTok "*", varTok "x"] ++ [opTok "+"] ++ [numTok "7"])
      = [[numTok "6", opTok "*", varTok "x"], [numTok "7"]] :=
  split_sign_capture [numTok "6", opTok "*", varTok "x"] [numTok "7"] (opTok "-") (opTok "+")
    (by decide) (by decide) (by decide) (by decide) rfl rfl

/-! ### integrateExpression -/

/-- A sequenced evaluation returns exactly when both steps return. -/
theorem bind_ok {α β : Type} (x : Except Fault α) (f : α → Except Fault β) (r : β) :
    (x >>= f) = Except.ok r ↔ ∃ a, x = Except.ok a ∧ f a = Except.ok r := by
  cases x <;> simp [bind, Except.bind]

/-- The power rule returns one token or seven, never none. -/
theorem powerRule_ne_nil (var : Char) (coeff exponent : Double) (hasVar : Bool) :
    powerRule var coeff exponent hasVar ≠ [] := by
  unfold powerRule
  cases hasVar <;> simp

/-- A returned term is never empty: it is the zero token or an outcome of the
power rule. -/
theorem integrateTermLoop_ne_nil (var : Char) (tokens : List Token) :
    ∀ (cs es : List Double) (vs : List Bool) (r : List Token),
      integrateTermLoop var tokens cs es vs = Except.ok r → r ≠ [] := by
  induction tokens with
  | nil =>
    intro cs es vs r h
    unfold integrateTermLoop at h
    split at h
    · simp [zeroToken] at h; subst h; simp
    · cases cs <;> cases es <;> cases vs <;> simp [top, bind, Except.bind] at h
      subst h
      exact powerRule_ne_nil _ _ _ _
  | cons t rest ih =>
    intro cs es vs r h
    unfold integrateTermLoop at h
    repeat' split at h
    all_goals first
      | exact ih _ _ _ _ h
      | (simp only [Except.ok.injEq] at h; subst h; simp)
      | (simp only [bind_ok] at h
         repeat (obtain ⟨_, _, h⟩ := h)
         exact ih _ _ _ _ h)

/-- The result of `integrateTerm` is never empty. -/
theorem integrateTerm_ne_nil {p : List Token} {x : Char} {r : List Token}
    (h : integrateTerm p x = Except.ok r) : r ≠ [] :=
  integrateTermLoop_ne_nil x p [] [] [] r h

/-- A term that does not begin with `u-` is not negative. -/
theorem isNegativeTerm_of_head {A : List Token}
    (h : A.head?.map Token.value ≠ some "u-") : isNegativeTerm A = false := by
  cases A with
  | nil => rfl
  | cons a l => simpa [isNegativeTerm] using h

/-- C3. Term-wise integration with sign stitching: for non-empty `A` and `B`
without `+`/`-` tokens that do not begin with `u-`, and a boundary token `s`
with text `+` or `-`, `integrateExpression` on `A ++ [s] ++ B` integrates `A`,
then `B`, and returns the tokens of the first result, the operator token with
the text of `s`, and the tokens of the second result; it ends as
`integrateTerm` does on `A`, or else on `B`, when one of them does not return.
The token texts are those of the two results around the text of `s`, and the
two documented inputs render as stated. -/
theorem integrate_two_terms (A B : List Token) (s : Token) (x : Char)
    (hA : NoBoundary A) (hB : NoBoundary B) (hAne : A ≠ []) (hBne : B ≠ [])
    (hAhead : A.head?.map Token.value ≠ some "u-")
    (hBhead : B.head?.map Token.value ≠ some "u-")
    (hs : s.value = "+" ∨ s.value = "-") :
    (integrateExpression (A ++ [s] ++ B) x = do
      let ra ← integrateTerm (infixToPostfix A) x
      let rb ← integrateTerm (infixToPostfix B) x
      Except.ok (ra ++ [opTok s.value] ++ rb)) ∧
    (∀ ra rb : List Token, (ra ++ [opTok s.value] ++ rb).map Token.value
      = ra.map Token.value ++ [s.value] ++ rb.map Token.value) ∧
    render "2*(x^3)-6*x+7" = Except.ok "0.5*(x^4)-3*(x^2)+7*x" ∧
    render "2*x^4-5*x+3" = Except.ok "0.4*(x^5)-2.5*(x^2)+3*x" := by
  have hnA := isNegativeTerm_of_head hAhead
  have hnB := isNegativeTerm_of_head hBhead
  refine ⟨?_, by intro ra rb; simp [opTok], by decide!, by decide!⟩
  rw [integrateExpression, split_two A B s hA hB hAne hBne hs]
  cases ha : integrateTerm (infixToPostfix A) x with
  | error e =>
    rcases hs with hs | hs
    · have hne : s.value ≠ "-" := by rw [hs]; decide
      simp [integrateExpressionLoop, hnA, ha, hne, bind, Except.bind]
    · simp [integrateExpressionLoop, hnA, ha, bind, Except.bind]
  | ok ra =>
    have hra : ra ≠ [] := integrateTerm_ne_nil ha
    cases hb : integrateTerm (infixToPostfix B) x with
    | error e =>
      rcases hs with hs | hs
      · have hne : s.value ≠ "-" := by rw [hs]; decide
        simp [integrateExpressionLoop, hnA, hnB, ha, hb, hra, hne, bind, Except.bind]
      · have hneg : isNegativeTerm (unaryMinus :: B) = true := rfl
        simp [integrateExpressionLoop, hnA, hneg, ha, hb, hra, bind, Except.bind, hs]
    | ok rb =>
      have hrb : rb ≠ [] := integrateTerm_ne_nil hb
      rcases hs with hs | hs
      · have hne : s.value ≠ "-" := by rw [hs]; decide
        simp [integrateExpressionLoop, hnA, hnB, ha, hb, hra, hrb, hne, signFor, bind,
          Except.bind, hs]
      · have hneg : isNegativeTerm (unaryMinus :: B) = true := rfl
        simp [integrateExpressionLoop, hnA, hneg, ha, hb, hra, hrb, signFor, bind, Except.bind,
          hs]

/-- Stitching `6*x` and `7` around a `-` gives `3*(x^2)`, `-`, `7*x`.  Stitching
`1/0` and `x` around a `+` gives `inf*x`, `+`, `0.5*(x^2)`, and stitching
`x^-1` and `x` gives `inf*(x^0)`, `+`, `0.5*(x^2)`: a quotient by zero is the
infinity of `double`. -/
theorem integrate_two_terms_witness :
    integrateExpression
        ([numTok "6", opTok "*", varTok "x"] ++ [opTok "-"] ++ [numTok "7"]) 'x'
      = Except.ok [numTok "3", opTok "*", opTok "(", varTok "x", opTok "^", numTok "2",
          opTok ")", opTok "-", ⟨"7*x", false, false, false⟩] ∧
    integrateExpression
        ([numTok "1", opTok "/", numTok "0"] ++ [opTok "+"] ++ [varTok "x"]) 'x'
      = Except.ok [⟨"inf*x", false, false, false⟩, opTok "+", numTok "0.5", opTok "*",
          opTok "(", varTok "x", opTok "^", numTok "2", opTok ")"] ∧
    tokenize "x^-1+x"
      = [varTok "x", opTok "^", opTok "u-", numTok "1"] ++ [opTok "+"] ++ [varTok "x"] ∧
    integrateExpression
        ([varTok "x", opTok "^", opTok "u-", numTok "1"] ++ [opTok "+"] ++ [varTok "x"]) 'x'
      = Except.ok [numTok "inf", opTok "*", opTok "(", varTok "x", opTok "^", numTok "0",
          opTok ")", opTok "+", numTok "0.5", opTok "*", opTok "(", varTok "x", opTok "^",
          numTok "2", opTok ")"] :=
  ⟨(integrate_two_terms [numTok "6", opTok "*", varTok "x"] [numTok "7"] (opTok "-") 'x'
      (by decide) (by decide) (by decide) (by decide) (by decide) (by decide)
      (Or.inr rfl)).1.trans (by decide!),
    (integrate_two_terms [numTok "1", opTok "/", numTok "0"] [varTok "x"] (opTok "+") 'x'
      (by decide) (by decide) (by decide) (by decide) (by decide) (by decide)
      (Or.inl rfl)).1.trans (by decide!),
    by decide,
    (integrate_two_terms [varTok "x", opTok "^", opTok "u-", numTok "1"] [varTok "x"]
      (opTok "+") 'x'
      (by decide) (by decide) (by decide) (by decide) (by decide) (by decide)
      (Or.inl rfl)).1.trans (by decide!)⟩

/-! ### infixToPostfix on fully parenthesized expressions -/

/-- The token of a unary operator is an operator other than a parenthesis. -/
theorem unaryToken_spec (op : UnaryOp) :
    op.token.isOperator = true ∧ op.token.value ≠ "(" ∧ op.token.value ≠ ")" := by
  cases op <;> decide

/-- The token of a binary operator is an operator other than a parenthesis. -/
theorem binaryToken_spec (op : BinaryOp) :
    op.token.isOperator = true ∧ op.token.value ≠ "(" ∧ op.token.value ≠ ")" := by
  cases op <;> decide

/-- A `(` is pushed on the operator stack. -/
theorem loop_open (rest output opStack : List Token) :
    infixToPostfixLoop (opTok "(" :: rest) output opStack
      = infixToPostfixLoop rest output (opTok "(" :: opStack) := by
  have ho : (opTok "(").isOperator = true := rfl
  have hv : (opTok "(").value = "(" := rfl
  simp [infixToPostfixLoop, ho, hv]

/-- An operator other than a parenthesis met with a `(` on top is pushed. -/
theorem loop_operator_on_open (t : Token)
    (h : t.isOperator = true ∧ t.value ≠ "(" ∧ t.value ≠ ")")
    (rest output opStack : List Token) :
    infixToPostfixLoop (t :: rest) output (opTok "(" :: opStack)
      = infixToPostfixLoop rest output (t :: opTok "(" :: opStack) := by
  obtain ⟨h1, h2, h3⟩ := h
  have hy : yields (opTok "(") t = false := by simp [yields, opTok]
  simp [infixToPostfixLoop, pushOperator, h1, h2, h3, hy]

/-- A `)` met with an operator on top of its `(` emits the operator and drops
the pair. -/
theorem loop_close (t : Token) (h : t.isOperator = true ∧ t.value ≠ "(" ∧ t.value ≠ ")")
    (rest output opStack : List Token) :
    infixToPostfixLoop (opTok ")" :: rest) output (t :: opTok "(" :: opStack)
      = infixToPostfixLoop rest (output ++ [t]) opStack := by
  obtain ⟨h1, h2, h3⟩ := h
  have ho : (opTok ")").isOperator = true := rfl
  have hv : (opTok ")").value = ")" := rfl
  have hv2 : (opTok "(").value = "(" := rfl
  simp [infixToPostfixLoop, closeParen, h2, ho, hv, hv2]

/-- Reading the parenthesized form of a tree appends its post-order to the
output and leaves the operator stack as it was. -/
theorem loop_parenthesized (e : Expr) :
    ∀ rest output opStack : List Token,
      infixToPostfixLoop (e.parenthesized ++ rest) output opStack
        = infixToPostfixLoop rest (output ++ e.postOrder) opStack := by
  induction e with
  | operand v isVar isNum =>
    intro rest output opStack
    simp [Expr.parenthesized, Expr.postOrder, infixToPostfixLoop]
  | unary op e ih =>
    intro rest output opStack
    simp only [Expr.parenthesized, Expr.postOrder, List.cons_append, List.append_assoc,
      List.nil_append]
    rw [loop_open, loop_operator_on_open _ (unaryToken_spec op), ih,
      loop_close _ (unaryToken_spec op), List.append_assoc]
  | binary op l r ihl ihr =>
    intro rest output opStack
    simp only [Expr.parenthesized, Expr.postOrder, List.cons_append, List.append_assoc,
      List.nil_append]
    rw [loop_open, ihl, loop_operator_on_open _ (binaryToken_spec op), ihr,
      loop_close _ (binaryToken_spec op)]
    simp only [List.append_assoc]

/-- C6. For every expression tree over operand tokens, the unary operators
`u-`/`u+` and the binary operators `+ - * / ^`, `infixToPostfix` applied to
the fully parenthesized token rendering of the tree is the post-order
traversal of the tree. -/
theorem infixToPostfix_parenthesized (e : Expr) :
    infixToPostfix e.parenthesized = e.postOrder := by
  have h := loop_parenthesized e [] [] []
  simpa [infixToPostfix, infixToPostfixLoop] using h

/-! ### Constant terms -/

/-- The `)` branch keeps the loop state well formed and closes one open `(`,
if there is one. -/
theorem closeParen_inv (opStack : List Token) :
    ∀ (output : List Token) (depth : Nat), ParenInv output opStack depth →
      ParenInv (closeParen output opStack).1 (closeParen output opStack).2 (depth - 1) := by
  induction opStack with
  | nil =>
    intro output depth h
    obtain ⟨h1, _, h3⟩ := h
    refine ⟨by simpa [closeParen] using h1, by simp [closeParen], ?_⟩
    simp at h3
    simp [closeParen, ← h3]
  | cons top st ih =>
    intro output depth h
    obtain ⟨h1, h2, h3⟩ := h
    have htop := h2 top (List.mem_cons_self _ _)
    have hst : ∀ t ∈ st, t.isOperator = true ∧ t.value ≠ ")" :=
      fun t ht => h2 t (List.mem_cons_of_mem _ ht)
    by_cases hv : top.value = "("
    · have hopen : isOpenParen top = true := by simp [isOpenParen, htop.1, hv]
      rw [List.countP_cons_of_pos _ _ hopen] at h3
      simp only [closeParen, hv, ne_eq, not_true_eq_false, if_false]
      exact ⟨h1, hst, by omega⟩
    · have hopen : isOpenParen top = false := by simp [isOpenParen, hv]
      have hclose : isCloseParen top = false := by simp [isCloseParen, htop.2]
      rw [List.countP_cons_of_neg _ _ (by simp [hopen])] at h3
      simp only [closeParen, hv, ne_eq, not_false_eq_true, if_true]
      refine ih (output ++ [top]) depth ⟨?_, hst, h3⟩
      intro t ht
      rcases List.mem_append.mp ht with ht | ht
      · exact h1 t ht
      · rw [List.mem_singleton.mp ht]; exact ⟨hopen, hclose⟩

/-- Pushing an operator other than a parenthesis keeps the loop state well
formed and the number of open `(` unchanged. -/
theorem pushOperator_inv (token : Token) (hop : token.isOperator = true)
    (h1 : token.value ≠ "(") (h2 : token.value ≠ ")") (opStack : List Token) :
    ∀ (output : List Token) (depth : Nat), ParenInv output opStack depth →
      ParenInv (pushOperator token output opStack).1 (pushOperator token output opStack).2
        depth := by
  have hnopen : isOpenParen token = false := by simp [isOpenParen, h1]
  induction opStack with
  | nil =>
    intro output depth h
    obtain ⟨ho, _, hc⟩ := h
    refine ⟨by simpa [pushOperator] using ho, by simp [pushOperator, hop, h2], ?_⟩
    simp at hc
    simp [pushOperator, hnopen, ← hc]
  | cons top st ih =>
    intro output depth h
    obtain ⟨ho, hs, hc⟩ := h
    have htop := hs top (List.mem_cons_self _ _)
    have hst : ∀ t ∈ st, t.isOperator = true ∧ t.value ≠ ")" :=
      fun t ht => hs t (List.mem_cons_of_mem _ ht)
    by_cases hy : yields top token = true
    · have hv : top.value ≠ "(" := by
        simp only [yields, decide_eq_true_eq] at hy
        exact hy.1
      have hopen : isOpenParen top = false := by simp [isOpenParen, hv]
      have hclose : isCloseParen top = false := by simp [isCloseParen, htop.2]
      rw [List.countP_cons_of_neg _ _ (by simp [hopen])] at hc
      simp only [pushOperator, hy, if_true]
      refine ih (output ++ [top]) depth ⟨?_, hst, hc⟩
      intro t ht
      rcases List.mem_append.mp ht with ht | ht
      · exact ho t ht
      · rw [List.mem_singleton.mp ht]; exact ⟨hopen, hclose⟩
    · have hy2 : yields top token = false := by simpa using hy
      simp only [pushOperator, hy2, Bool.false_eq_true, if_false]
      refine ⟨ho, ?_, ?_⟩
      · intro t ht
        rcases List.mem_cons.mp ht with ht | ht
        · rw [ht]; exact ⟨hop, h2⟩
        · exact hs t ht
      · rw [List.countP_cons_of_neg _ _ (by simp [hnopen])]
        exact hc

/-- From a well-formed state the loop ends with no `)` in the output and as
many `(` as are left open. -/
theorem loop_paren (tokens : List Token) :
    ∀ (output opStack : List Token) (depth : Nat), ParenInv output opStack depth →
      (∀ t ∈ infixToPostfixLoop tokens output opStack, isCloseParen t = false) ∧
      (infixToPostfixLoop tokens output opStack).countP isOpenParen
        = unclosedFrom tokens depth := by
  induction tokens with
  | nil =>
    intro output opStack depth h
    obtain ⟨ho, hs, hc⟩ := h
    simp only [infixToPostfixLoop, unclosedFrom]
    constructor
    · intro t ht
      rcases List.mem_append.mp ht with ht | ht
      · exact (ho t ht).2
      · simp [isCloseParen, (hs t ht).2]
    · rw [List.countP_append, hc]
      have : output.countP isOpenParen = 0 := by
        rw [List.countP_eq_zero]
        intro t ht
        simp [(ho t ht).1]
      omega
  | cons token rest ih =>
    intro output opStack depth h
    obtain ⟨ho, hs, hc⟩ := h
    by_cases hop : token.isOperator = true
    · by_cases hv1 : token.value = "("
      · have h1 : isOpenParen token = true := by simp [isOpenParen, hop, hv1]
        simp only [infixToPostfixLoop, unclosedFrom, hop, hv1, h1, not_true_eq_false, if_false,
          if_true]
        refine ih output (token :: opStack) (depth + 1) ⟨ho, ?_, ?_⟩
        · intro t ht
          rcases List.mem_cons.mp ht with ht | ht
          · rw [ht, hv1]; exact ⟨hop, by decide⟩
          · exact hs t ht
        · rw [List.countP_cons_of_pos _ _ h1, hc]
      · have h1 : isOpenParen token = false := by simp [isOpenParen, hv1]
        by_cases hv2 : token.value = ")"
        · have h2 : isCloseParen token = true := by simp [isCloseParen, hop, hv2]
          simp only [infixToPostfixLoop, unclosedFrom, hop, hv1, hv2, h1, h2,
            not_true_eq_false, if_false, if_true]
          exact ih _ _ _ (closeParen_inv opStack output depth ⟨ho, hs, hc⟩)
        · have h2 : isCloseParen token = false := by simp [isCloseParen, hv2]
          simp only [infixToPostfixLoop, unclosedFrom, hop, hv1, hv2, h1, h2,
            not_true_eq_false, if_false, Bool.false_eq_true]
          exact ih _ _ _ (pushOperator_inv token hop hv1 hv2 opStack output depth ⟨ho, hs, hc⟩)
    · have h1 : isOpenParen token = false := by simp [isOpenParen, hop]
      have h2 : isCloseParen token = false := by simp [isCloseParen, hop]
      simp only [infixToPostfixLoop, unclosedFrom, hop, h1, h2, not_false_eq_true, if_true,
        Bool.false_eq_true, if_false]
      refine ih (output ++ [token]) opStack depth ⟨?_, hs, hc⟩
      intro t ht
      rcases List.mem_append.mp ht with ht | ht
      · exact ho t ht
      · rw [List.mem_singleton.mp ht]; exact ⟨h1, h2⟩

/-- Counterexample to C7. On a lone `(` the final drain moves the unmatched
parenthesis to the output. -/
theorem unmatched_open_is_emitted :
    tokenize "(" = [opTok "("] ∧ infixToPostfix (tokenize "(") = [opTok "("] := by
  refine ⟨by decide, by decide⟩

/-- C7, amended. For every token sequence the output of `infixToPostfix` holds
no operator token `)`, and it holds exactly as many operator tokens `(` as the
input leaves open: none when every `(` is closed by a later `)`, while each
unmatched `(` is emitted by the final drain. -/
theorem infixToPostfix_parens (tokens : List Token) :
    (∀ t ∈ infixToPostfix tokens, isCloseParen t = false) ∧
    (infixToPostfix tokens).countP isOpenParen = unclosed tokens :=
  loop_paren tokens [] [] 0 ⟨by simp, by simp, by simp⟩

/-! ### Precedence and associativity -/

/-- C8. Precedence and associativity: with operands `a`, `b`, `c`, a `^`
token groups to the right, a `*`, `/`, `+` or `-` token groups to the left,
and of two binary operators the one of higher precedence (table `u-`/`u+` 5,
`^` 4, `*` `/` 3, `+` `-` 2) is applied first, whichever comes first. -/
theorem precedence_associativity (a b c pw op p q : Token)
    (ha : a.isOperator = false) (hb : b.isOperator = false) (hc : c.isOperator = false)
    (hpw : pw.isOperator = true ∧ pw.value = "^")
    (hop : op.isOperator = true ∧ op.value ∈ ["*", "/", "+", "-"])
    (hp : p.isOperator = true ∧ p.value ∈ binaryTexts)
    (hq : q.isOperator = true ∧ q.value ∈ binaryTexts)
    (hlt : precedence p.value < precedence q.value) :
    (precedence "u-" = 5 ∧ precedence "u+" = 5 ∧ precedence "^" = 4 ∧ precedence "*" = 3 ∧
      precedence "/" = 3 ∧ precedence "+" = 2 ∧ precedence "-" = 2) ∧
    infixToPostfix [a, pw, b, pw, c] = [a, b, c, pw, pw] ∧
    infixToPostfix [a, op, b, op, c] = [a, b, op, c, op] ∧
    infixToPostfix [a, p, b, q, c] = [a, b, c, q, p] ∧
    infixToPostfix [a, q, b, p, c] = [a, b, q, c, p] := by
  obtain ⟨hpw1, hpw2⟩ := hpw
  obtain ⟨hop1, hop2⟩ := hop
  obtain ⟨hp1, hp2⟩ := hp
  obtain ⟨hq1, hq2⟩ := hq
  refine ⟨by decide, ?_, ?_, ?_⟩
  · simp [infixToPostfix, infixToPostfixLoop, pushOperator, yields, precedence, isRightAssoc,
      ha, hb, hc, hpw1, hpw2]
  · simp only [List.mem_cons, List.mem_singleton, List.not_mem_nil, or_false] at hop2
    rcases hop2 with h | h | h | h <;>
      simp [infixToPostfix, infixToPostfixLoop, pushOperator, yields, precedence, isRightAssoc,
        ha, hb, hc, hop1, h]
  · simp only [binaryTexts, List.mem_cons, List.mem_singleton, List.not_mem_nil, or_false]
      at hp2 hq2
    rcases hp2 with h | h | h | h | h <;> rcases hq2 with k | k | k | k | k <;>
      first
        | (exfalso; rw [h, k] at hlt; revert hlt; decide)
        | simp [infixToPostfix, infixToPostfixLoop, pushOperator, yields, precedence,
            isRightAssoc, ha, hb, hc, hp1, hq1, h, k]

/-- Grouping on `x`, `y`, `z` with `^`, with `-`, and with `+` against `*`. -/
theorem precedence_associativity_witness :
    (precedence "u-" = 5 ∧ precedence "u+" = 5 ∧ precedence "^" = 4 ∧ precedence "*" = 3 ∧
      precedence "/" = 3 ∧ precedence "+" = 2 ∧ precedence "-" = 2) ∧
    infixToPostfix [varTok "x", opTok "^", varTok "y", opTok "^", varTok "z"]
      = [varTok "x", varTok "y", varTok "z", opTok "^", opTok "^"] ∧
    infixToPostfix [varTok "x", opTok "-", varTok "y", opTok "-", varTok "z"]
      = [varTok "x", varTok "y", opTok "-", varTok "z", opTok "-"] ∧
    infixToPostfix [varTok "x", opTok "+", varTok "y", opTok "*", varTok "z"]
      = [varTok "x", varTok "y", varTok "z", opTok "*", opTok "+"] ∧
    infixToPostfix [varTok "x", opTok "*", varTok "y", opTok "+", varTok "z"]
      = [varTok "x", varTok "y", opTok "*", varTok "z", opTok "+"] :=
  precedence_associativity (varTok "x") (varTok "y") (varTok "z") (opTok "^") (opTok "-")
    (opTok "+") (opTok "*") rfl rfl rfl (by decide) (by decide) (by decide) (by decide)
    (by decide)

/-! ### tokensToString and the documented example -/

/-- Without a Variable token right before a Number token, nothing is inserted. -/
theorem tokensToStringFrom_plain (tokens : List Token) :
    ∀ previous : Option Token,
      (∀ p t, previous = some p → tokens.head? = some t → variableThenNumber p t = false) →
      noAdjacent variableThenNumber tokens = true →
      tokensToStringFrom previous tokens = concatTexts tokens := by
  induction tokens with
  | nil => intro _ _ _; rfl
  | cons t rest ih =>
    intro previous hp hadj
    have hrest : noAdjacent variableThenNumber rest = true := by
      cases rest with
      | nil => rfl
      | cons b rest' => simp [noAdjacent] at hadj; exact hadj.2
    have hnext : ∀ p u, some t = some p → rest.head? = some u →
        variableThenNumber p u = false := by
      intro p u hp' hu
      cases rest with
      | nil => simp at hu
      | cons b rest' =>
        simp at hu hp'
        subst hu; subst hp'
        simp [noAdjacent] at hadj
        simpa using hadj.1
    have hno : ¬ (t.isNumber = true ∧ previous.map Token.isVariable = some true) := by
      rintro ⟨h1, h2⟩
      cases previous with
      | none => simp at h2
      | some p =>
        simp at h2
        have := hp p t rfl rfl
        simp [variableThenNumber, h1, h2] at this
    rw [tokensToStringFrom, if_neg hno, ih (some t) hnext hrest]
    simp [concatTexts]

/-- C15. For every token sequence in which no Variable token is immediately
followed by a Number token, `tokensToString` is the concatenation of the token
texts in order: no `*` is inserted. -/
theorem tokensToString_plain (tokens : List Token)
    (h : noAdjacent variableThenNumber tokens = true) :
    tokensToString tokens = concatTexts tokens :=
  tokensToStringFrom_plain tokens none (by simp) h

/-- The tokens of `3*(x^2)` hold no Variable right before a Number and render
as the concatenation of their texts. -/
theorem tokensToString_plain_witness :
    noAdjacent variableThenNumber (tokenize "3*(x^2)") = true ∧
    tokensToString (tokenize "3*(x^2)") = concatTexts (tokenize "3*(x^2)") :=
  ⟨by decide, tokensToString_plain (tokenize "3*(x^2)") (by decide)⟩

/-- C19, at the documented input. For `4*x^5-2*x^3+x-8` the printed result is
`0.666667*(x^6)-0.5*(x^4)+0.5*(x^2)-8*x`: the coefficient 4/6 is printed with
six decimals, `0.666667`, and not as `0.67`. -/
theorem documented_example_prints_six_decimals :
    render "4*x^5-2*x^3+x-8" = Except.ok "0.666667*(x^6)-0.5*(x^4)+0.5*(x^2)-8*x" ∧
    formatNumber (4 / 6) = "0.666667" := by
  refine ⟨by decide!, by decide!⟩

/-- The state of the loop of `splitInfixTerms` keeps every token that is no
boundary, in order, and adds only `u-` tokens. -/
theorem splitLoop_keeps (tokens : List Token) :
    ∀ (terms : List (List Token)) (currentTerm currentSign : List Token),
      currentSign.filter (fun x => !isUnaryMinusText x) = [] →
      (splitInfixTermsLoop tokens terms currentTerm currentSign).flatten.filter
          (fun x => !isUnaryMinusText x)
        = (terms.flatten ++ currentTerm).filter (fun x => !isUnaryMinusText x) ++
          tokens.filter (fun x => !isBoundary x && !isUnaryMinusText x) := by
  induction tokens with
  | nil =>
    intro terms cur sign hs
    cases cur with
    | nil => simp [splitInfixTermsLoop, flushTerm]
    | cons a l => simp [splitInfixTermsLoop, flushTerm, hs]
  | cons t rest ih =>
    intro terms cur sign hs
    by_cases hb : t.value = "+" ∨ t.value = "-"
    · have hb2 : isBoundary t = true := by simpa [isBoundary] using hb
      have hsign : (if t.value = "-" then [unaryMinus] else []).filter
          (fun x => !isUnaryMinusText x) = [] := by
        split <;> simp [unaryMinus, opTok, isUnaryMinusText]
      rw [splitInfixTermsLoop, if_pos hb, ih _ _ _ hsign]
      cases cur with
      | nil => simp [flushTerm, hb2]
      | cons a l => simp [flushTerm, hb2, hs]
    · have hb2 : isBoundary t = false := by simpa [isBoundary] using hb
      rw [splitInfixTermsLoop, if_neg hb, ih _ _ _ hs]
      by_cases hu : isUnaryMinusText t = true
      · simp [hb2, hu]
      · simp [hb2, hu]

/-- Every term built by the loop of `splitInfixTerms` is free of boundary
tokens and non-empty. -/
theorem splitLoop_terms (tokens : List Token) :
    ∀ (terms : List (List Token)) (currentTerm currentSign : List Token),
      (∀ term ∈ terms, NoBoundary term ∧ term ≠ []) → NoBoundary currentTerm →
      NoBoundary currentSign →
      ∀ term ∈ splitInfixTermsLoop tokens terms currentTerm currentSign,
        NoBoundary term ∧ term ≠ [] := by
  have hflush : ∀ (terms : List (List Token)) (cur sign : List Token),
      (∀ term ∈ terms, NoBoundary term ∧ term ≠ []) → NoBoundary cur → NoBoundary sign →
      ∀ term ∈ flushTerm terms cur sign, NoBoundary term ∧ term ≠ [] := by
    intro terms cur sign ht hc hs term hmem
    cases cur with
    | nil => exact ht term (by simpa [flushTerm] using hmem)
    | cons a l =>
      simp only [flushTerm, List.isEmpty_cons, Bool.false_eq_true, if_false,
        List.mem_append, List.mem_singleton] at hmem
      rcases hmem with hmem | hmem
      · exact ht term hmem
      · subst hmem
        refine ⟨?_, by simp⟩
        intro x hx
        rcases List.mem_append.mp hx with hx | hx
        · exact hs x hx
        · exact hc x hx
  induction tokens with
  | nil =>
    intro terms cur sign ht hc hs
    exact hflush terms cur sign ht hc hs
  | cons t rest ih =>
    intro terms cur sign ht hc hs
    by_cases hb : t.value = "+" ∨ t.value = "-"
    · rw [splitInfixTermsLoop, if_pos hb]
      refine ih _ _ _ (hflush terms cur sign ht hc hs) (by intro x hx; simp at hx) ?_
      split
      · intro x hx
        rw [List.mem_singleton.mp hx]
        decide
      · intro x hx; simp at hx
    · rw [splitInfixTermsLoop, if_neg hb]
      refine ih _ _ _ ht ?_ hs
      intro x hx
      rcases List.mem_append.mp hx with hx | hx
      · exact hc x hx
      · rw [List.mem_singleton.mp hx]
        exact ⟨fun h => hb (Or.inl h), fun h => hb (Or.inr h)⟩

/-- C17. `splitInfixTerms` only removes boundaries: the returned terms,
concatenated and without their `u-` tokens, are the input without its `+`, `-`
and `u-` tokens, and no returned term holds a `+` or `-` token. -/
theorem split_only_removes_boundaries (t : List Token) :
    (splitInfixTerms t).flatten.filter (fun x => !isUnaryMinusText x)
      = t.filter (fun x => !isBoundary x && !isUnaryMinusText x) ∧
    ∀ term ∈ splitInfixTerms t, NoBoundary term := by
  constructor
  · have h := splitLoop_keeps t [] [] [] rfl
    simpa [splitInfixTerms] using h
  · intro term hmem
    exact (splitLoop_terms t [] [] [] (by simp) (by intro x hx; simp at hx)
      (by intro x hx; simp at hx) term hmem).1

/-! ### Operands and operators kept by infixToPostfix -/

/-- The `)` branch moves no operand and keeps only operators on the stack. -/
theorem closeParen_operands (opStack : List Token) :
    ∀ output : List Token, (∀ t ∈ opStack, t.isOperator = true) →
      (closeParen output opStack).1.filter isOperand = output.filter isOperand ∧
      ∀ t ∈ (closeParen output opStack).2, t.isOperator = true := by
  induction opStack with
  | nil => intro output _; simp [closeParen]
  | cons top st ih =>
    intro output h
    have htop : top.isOperator = true := h top (List.mem_cons_self _ _)
    have hst : ∀ t ∈ st, t.isOperator = true := fun t ht => h t (List.mem_cons_of_mem _ ht)
    by_cases hv : top.value = "("
    · simp only [closeParen, hv, ne_eq, not_true_eq_false, if_false]
      exact ⟨trivial, hst⟩
    · simp only [closeParen, hv, ne_eq, not_false_eq_true, if_true]
      have := ih (output ++ [top]) hst
      refine ⟨?_, this.2⟩
      rw [this.1]
      simp [isOperand, htop]

/-- The `)` branch keeps every operator other than a parenthesis. -/
theorem closeParen_perm (opStack : List Token) :
    ∀ output : List Token,
      ((closeParen output opStack).1 ++ (closeParen output opStack).2).filter isPlainOperator
        = (output ++ opStack).filter isPlainOperator := by
  induction opStack with
  | nil => intro output; simp [closeParen]
  | cons top st ih =>
    intro output
    by_cases hv : top.value = "("
    · simp [closeParen, hv, isPlainOperator]
    · simp only [closeParen, hv, ne_eq, not_false_eq_true, if_true]
      rw [ih (output ++ [top])]
      simp

/-- Pushing an operator moves no operand and keeps only operators on the
stack. -/
theorem pushOperator_operands (token : Token) (htok : token.isOperator = true)
    (opStack : List Token) :
    ∀ output : List Token, (∀ t ∈ opStack, t.isOperator = true) →
      (pushOperator token output opStack).1.filter isOperand = output.filter isOperand ∧
      ∀ t ∈ (pushOperator token output opStack).2, t.isOperator = true := by
  induction opStack with
  | nil =>
    intro output _
    simp [pushOperator, htok]
  | cons top st ih =>
    intro output h
    have htop : top.isOperator = true := h top (List.mem_cons_self _ _)
    have hst : ∀ t ∈ st, t.isOperator = true := fun t ht => h t (List.mem_cons_of_mem _ ht)
    by_cases hy : yields top token = true
    · simp only [pushOperator, hy, if_true]
      have := ih (output ++ [top]) hst
      refine ⟨?_, this.2⟩
      rw [this.1]
      simp [isOperand, htop]
    · have hy2 : yields top token = false := by simpa using hy
      simp only [pushOperator, hy2, Bool.false_eq_true, if_false]
      refine ⟨trivial, ?_⟩
      intro t ht
      rcases List.mem_cons.mp ht with ht | ht
      · rw [ht]; exact htok
      · exact h t ht

/-- Pushing an operator keeps every operator and adds the pushed one. -/
theorem pushOperator_perm (token : Token) (opStack : List Token) :
    ∀ output : List Token,
      List.Perm
        (((pushOperator token output opStack).1 ++
          (pushOperator token output opStack).2).filter isPlainOperator)
        ((output ++ opStack).filter isPlainOperator ++ [token].filter isPlainOperator) := by
  induction opStack with
  | nil => intro output; simp [pushOperator]
  | cons top st ih =>
    intro output
    by_cases hy : yields top token = true
    · simp only [pushOperator, hy, if_true]
      refine (ih (output ++ [top])).trans ?_
      simp
    · have hy2 : yields top token = false := by simpa using hy
      simp only [pushOperator, hy2, Bool.false_eq_true, if_false, List.filter_append]
      rw [List.append_assoc]
      refine List.Perm.append_left _ ?_
      rw [show token :: top :: st = [token] ++ (top :: st) from rfl, List.filter_append]
      exact List.perm_append_comm

/-- The loop of `infixToPostfix` appends the operands in their order and keeps
every operator other than a parenthesis. -/
theorem loop_preserves (tokens : List Token) :
    ∀ output opStack : List Token, (∀ t ∈ opStack, t.isOperator = true) →
      (infixToPostfixLoop tokens output opStack).filter isOperand
        = output.filter isOperand ++ tokens.filter isOperand ∧
      List.Perm ((infixToPostfixLoop tokens output opStack).filter isPlainOperator)
        ((output ++ opStack).filter isPlainOperator ++ tokens.filter isPlainOperator) := by
  induction tokens with
  | nil =>
    intro output opStack h
    simp only [infixToPostfixLoop, List.filter_nil, List.append_nil]
    refine ⟨?_, List.Perm.refl _⟩
    rw [List.filter_append]
    have : opStack.filter isOperand = [] := by
      rw [List.filter_eq_nil_iff]
      intro t ht
      simp [isOperand, h t ht]
    rw [this, List.append_nil]
  | cons token rest ih =>
    intro output opStack h
    by_cases hop : token.isOperator = true
    · have hnd : isOperand token = false := by simp [isOperand, hop]
      by_cases hv1 : token.value = "("
      · have hpl : isPlainOperator token = false := by simp [isPlainOperator, hv1]
        simp only [infixToPostfixLoop, hop, not_true_eq_false, if_false, if_pos hv1]
        have hs : ∀ t ∈ token :: opStack, t.isOperator = true := by
          intro t ht
          rcases List.mem_cons.mp ht with ht | ht
          · rw [ht]; exact hop
          · exact h t ht
        obtain ⟨h1, h2⟩ := ih output (token :: opStack) hs
        refine ⟨by rw [h1]; simp [hnd], h2.trans ?_⟩
        simp [hpl]
      · by_cases hv2 : token.value = ")"
        · have hpl : isPlainOperator token = false := by simp [isPlainOperator, hv2]
          simp only [infixToPostfixLoop, hop, not_true_eq_false, if_false, if_neg hv1,
            if_pos hv2]
          obtain ⟨c1, c2⟩ := closeParen_operands opStack output h
          obtain ⟨h1, h2⟩ := ih _ _ c2
          refine ⟨by rw [h1, c1]; simp [hnd], h2.trans ?_⟩
          rw [closeParen_perm opStack output]
          simp [hpl]
        · have hpl : isPlainOperator token = true := by simp [isPlainOperator, hop, hv1, hv2]
          simp only [infixToPostfixLoop, hop, not_true_eq_false, if_false, if_neg hv1,
            if_neg hv2]
          obtain ⟨c1, c2⟩ := pushOperator_operands token hop opStack output h
          obtain ⟨h1, h2⟩ := ih _ _ c2
          refine ⟨by rw [h1, c1]; simp [hnd], h2.trans ?_⟩
          refine ((pushOperator_perm token opStack output).append_right _).trans ?_
          simp [hpl]
    · have hop2 : token.isOperator = false := by simpa using hop
      have hnd : isOperand token = true := by simp [isOperand, hop2]
      have hpl : isPlainOperator token = false := by simp [isPlainOperator, hop2]
      simp only [infixToPostfixLoop, hop2, Bool.false_eq_true, not_false_eq_true, if_true]
      obtain ⟨h1, h2⟩ := ih (output ++ [token]) opStack h
      refine ⟨by rw [h1]; simp [hnd], h2.trans ?_⟩
      simp [hpl]

/-- C20. `infixToPostfix` never reorders or drops operands: the non-operator
tokens of the output are those of the input, in the same order, and the
operator tokens other than parentheses of the output are those of the input
up to their order, each as often as in the input. -/
theorem infixToPostfix_preserves (tokens : List Token) :
    (infixToPostfix tokens).filter isOperand = tokens.filter isOperand ∧
    List.Perm ((infixToPostfix tokens).filter isPlainOperator)
      (tokens.filter isPlainOperator) ∧
    ∀ t : Token, isPlainOperator t = true →
      (infixToPostfix tokens).count t = tokens.count t := by
  obtain ⟨h1, h2⟩ := loop_preserves tokens [] [] (by simp)
  have h2 : List.Perm ((infixToPostfix tokens).filter isPlainOperator)
      (tokens.filter isPlainOperator) := by simpa [infixToPostfix] using h2
  refine ⟨by simpa [infixToPostfix] using h1, h2, ?_⟩
  intro t ht
  have hc := h2.count_eq t
  rw [List.count_filter ht, List.count_filter ht] at hc
  exact hc

/-! ### formatNumber -/

/-- The character of a decimal digit is in the `isdigit` class. -/
theorem digitChar_isdigit (d : Nat) (h : d < 10) : isdigit (Nat.digitChar d) = true := by
  interval_cases d <;> decide

/-- The digit loop of `Nat.toDigits` in base ten yields digits only. -/
theorem toDigitsCore_isdigit (fuel : Nat) :
    ∀ (n : Nat) (ds : List Char), (∀ c ∈ ds, isdigit c = true) →
      ∀ c ∈ Nat.toDigitsCore 10 fuel n ds, isdigit c = true := by
  induction fuel with
  | zero => intro n ds h; simpa [Nat.toDigitsCore] using h
  | succ fuel ih =>
    intro n ds h
    have hd : ∀ c ∈ Nat.digitChar (n % 10) :: ds, isdigit c = true := by
      intro c hc
      rcases List.mem_cons.mp hc with hc | hc
      · rw [hc]; exact digitChar_isdigit _ (Nat.mod_lt _ (by decide))
      · exact h c hc
    unfold Nat.toDigitsCore
    simp only
    split
    · exact hd
    · exact ih _ _ hd

/-- The decimal digits of a number are in the `isdigit` class. -/
theorem toDigits_isdigit (n : Nat) : ∀ c ∈ Nat.toDigits 10 n, isdigit c = true :=
  toDigitsCore_isdigit _ _ _ (by simp)

/-- The fixed-width decimal digits of a number are in the `isdigit` class. -/
theorem fixedDigits_isdigit (width : Nat) :
    ∀ (n : Nat), ∀ c ∈ fixedDigits width n, isdigit c = true := by
  induction width with
  | zero => intro n c hc; simp [fixedDigits] at hc
  | succ w ih =>
    intro n c hc
    simp only [fixedDigits, List.mem_append, List.mem_singleton] at hc
    rcases hc with hc | hc
    · exact ih _ c hc
    · rw [hc]; exact digitChar_isdigit _ (Nat.mod_lt _ (by decide))

/-- Dropping a prefix stops at the latest at a character that fails the test. -/
theorem dropWhile_append_stop (p : Char → Bool) (x : Char) (hx : p x = false)
    (l r : List Char) : (l ++ x :: r).dropWhile p = l.dropWhile p ++ x :: r := by
  induction l with
  | nil => simp [List.dropWhile, hx]
  | cons a l ih =>
    by_cases ha : p a = true
    · simp [List.dropWhile, ha, ih]
    · simp [List.dropWhile, ha]

/-- The erasure of trailing zeros stops at the decimal point. -/
theorem eraseTrailingZeros_dot (a f : List Char) :
    eraseTrailingZeros (a ++ '.' :: f) = a ++ '.' :: eraseTrailingZeros f := by
  simp only [eraseTrailingZeros, List.reverse_append, List.reverse_cons, List.append_assoc,
    List.singleton_append]
  rw [dropWhile_append_stop _ '.' (by decide)]
  simp

/-- The erasure of trailing zeros keeps only characters of the text. -/
theorem eraseTrailingZeros_subset (f : List Char) : ∀ c ∈ eraseTrailingZeros f, c ∈ f := by
  intro c hc
  simp only [eraseTrailingZeros, List.mem_reverse] at hc
  have := (List.dropWhile_sublist (fun c => decide (c = '0'))).subset hc
  simpa using this

/-- The decimal point is popped exactly when no fractional digit is left. -/
theorem popTrailingDot_dot (a g : List Char) (hg : ∀ c ∈ g, isdigit c = true) :
    popTrailingDot (a ++ '.' :: g) = if g = [] then a else a ++ '.' :: g := by
  cases hgl : g.getLast? with
  | none =>
    have : g = [] := by simpa using hgl
    subst this
    simp [popTrailingDot]
  | some z =>
    have hne : g ≠ [] := by intro h; simp [h] at hgl
    have hz : z ∈ g := List.mem_of_getLast?_eq_some hgl
    have hzd : z ≠ '.' := by intro h; have := hg z hz; rw [h] at this; revert this; decide
    have hlast : (a ++ '.' :: g).getLast? = some z := by
      rw [List.getLast?_append, List.getLast?_cons, hgl]
      simp
    simp [popTrailingDot, hlast, hzd, hne]

/-- The formatted text of a finite value is the short form of its fixed
rendering. -/
theorem formatNumber_short (s : Bool) (m : ℚ) :
    formatNumber (Double.finite s m) = String.mk (shortText s (scaled6 m)) := by
  have hfix : fixedText s (scaled6 m)
      = wholeText s (scaled6 m) ++ '.' :: fractionText (scaled6 m) := by
    simp [fixedText, wholeText, fractionText]
  have hdig : ∀ c ∈ eraseTrailingZeros (fractionText (scaled6 m)), isdigit c = true :=
    fun c hc => fixedDigits_isdigit _ _ c (eraseTrailingZeros_subset _ c hc)
  rw [formatNumber, streamText, trimFixed, hfix, eraseTrailingZeros_dot,
    popTrailingDot_dot _ _ hdig]
  rfl

/-- The scaled magnitude of a natural number is the number times `10^6`. -/
theorem scaled6_natCast (k : Nat) : scaled6 (k : ℚ) = k * 10 ^ 6 := by
  unfold scaled6
  have h1 : ((k : ℚ)).num.natAbs = k := by simp
  have h2 : ((k : ℚ)).den = 1 := by simp
  rw [h1, h2]
  have h := halfEven_exact (k * 10 ^ 6) 1 (by decide)
  rw [Nat.mul_one] at h
  exact h

/-- The fractional digits of a natural number are all erased. -/
theorem fractionText_natCast (k : Nat) :
    eraseTrailingZeros (fractionText (scaled6 (k : ℚ))) = [] := by
  rw [scaled6_natCast, fractionText, Nat.mul_mod_left]
  decide

/-- The formatted text of an integer value: its sign and the digits of its
magnitude. -/
theorem formatNumber_natCast (s : Bool) (k : Nat) :
    formatNumber (Double.finite s (k : ℚ))
      = String.mk ((if s then ['-'] else []) ++ Nat.toDigits 10 k) := by
  rw [formatNumber_short, shortText, if_pos (fractionText_natCast k), wholeText,
    scaled6_natCast]
  simp

/-! #### The value written by the formatted text -/

/-- The value of a digit run extended by one digit. -/
theorem digitsValue_append (a : List Char) (c : Char) :
    digitsValue (a ++ [c]) = 10 * digitsValue a + (c.toNat - 48) := by
  simp [digitsValue, List.foldl_append]

/-- The value of a digit run in front of another one. -/
theorem digitsValue_cons_aux (b : List Char) :
    ∀ (acc : Nat), b.foldl (fun acc c => 10 * acc + (c.toNat - 48)) acc
      = acc * 10 ^ b.length + digitsValue b := by
  induction b with
  | nil => intro acc; simp [digitsValue]
  | cons c b ih =>
    intro acc
    simp only [List.foldl_cons, List.length_cons, digitsValue]
    rw [ih, ih (10 * 0 + (c.toNat - 48))]
    ring

/-- The value of a digit in front of a digit run. -/
theorem digitsValue_cons (c : Char) (b : List Char) :
    digitsValue (c :: b) = (c.toNat - 48) * 10 ^ b.length + digitsValue b := by
  have h := digitsValue_cons_aux b (10 * 0 + (c.toNat - 48))
  simp only [digitsValue, List.foldl_cons]
  rw [h]
  simp [digitsValue]

/-- The character of a decimal digit has the value of the digit. -/
theorem digitChar_value (d : Nat) (h : d < 10) : (Nat.digitChar d).toNat - 48 = d := by
  interval_cases d <;> decide

/-- The digit loop of `Nat.toDigits` writes the number in front of the digits
already written. -/
theorem toDigitsCore_value (fuel : Nat) :
    ∀ (n : Nat) (ds : List Char), n < fuel →
      digitsValue (Nat.toDigitsCore 10 fuel n ds) = n * 10 ^ ds.length + digitsValue ds := by
  induction fuel with
  | zero => intro n ds h; omega
  | succ fuel ih =>
    intro n ds h
    unfold Nat.toDigitsCore
    simp only
    split
    · rename_i h0
      have hn : n % 10 = n := by omega
      rw [digitsValue_cons, digitChar_value _ (Nat.mod_lt _ (by decide)), hn]
    · rename_i h0
      have hlt : n / 10 < fuel := by omega
      rw [ih _ _ hlt, digitsValue_cons, digitChar_value _ (Nat.mod_lt _ (by decide)),
        List.length_cons, pow_succ]
      have e : n = 10 * (n / 10) + n % 10 := (Nat.div_add_mod n 10).symm
      generalize n / 10 = a at e ⊢
      generalize n % 10 = b at e ⊢
      rw [e]
      ring

/-- The decimal digits of a number write the number. -/
theorem toDigits_value (n : Nat) : digitsValue (Nat.toDigits 10 n) = n := by
  have h := toDigitsCore_value (n + 1) n [] (by omega)
  simpa [Nat.toDigits, digitsValue] using h

/-- The fixed-width digits have the given width. -/
theorem fixedDigits_length (width : Nat) : ∀ (n : Nat), (fixedDigits width n).length = width := by
  induction width with
  | zero => intro n; rfl
  | succ w ih => intro n; simp [fixedDigits, ih]

/-- The fixed-width digits write the number modulo `10^width`. -/
theorem fixedDigits_value (width : Nat) :
    ∀ (n : Nat), digitsValue (fixedDigits width n) = n % 10 ^ width := by
  induction width with
  | zero => intro n; simp [fixedDigits, digitsValue, Nat.mod_one]
  | succ w ih =>
    intro n
    rw [fixedDigits, digitsValue_append, ih, digitChar_value _ (Nat.mod_lt _ (by decide)),
      pow_succ', Nat.mod_mul]
    ring

/-- The fraction written by a digit run after the decimal point. -/
theorem fraction_append_zero (a : List Char) :
    (digitsValue (a ++ ['0']) : ℚ) / ((10 ^ (a ++ ['0']).length : ℕ) : ℚ)
      = (digitsValue a : ℚ) / ((10 ^ a.length : ℕ) : ℚ) := by
  rw [digitsValue_append]
  have h0 : ('0' : Char).toNat - 48 = 0 := by decide
  rw [h0, List.length_append, List.length_singleton, pow_succ]
  push_cast
  field_simp
  ring

/-- Erasing trailing zeros does not change the fraction written. -/
theorem eraseTrailingZeros_value_aux (r : List Char) :
    (digitsValue (r.dropWhile (fun c => c = '0')).reverse : ℚ)
        / ((10 ^ (r.dropWhile (fun c => c = '0')).reverse.length : ℕ) : ℚ)
      = (digitsValue r.reverse : ℚ) / ((10 ^ r.reverse.length : ℕ) : ℚ) := by
  induction r with
  | nil => rfl
  | cons c r ih =>
    by_cases hc : c = '0'
    · subst hc
      have : (('0' :: r).dropWhile (fun c => c = '0')) = r.dropWhile (fun c => c = '0') := by
        simp [List.dropWhile]
      rw [this, ih, List.reverse_cons, fraction_append_zero]
    · have : ((c :: r).dropWhile (fun c => c = '0')) = c :: r := by
        simp [List.dropWhile, hc]
      rw [this]

/-- Erasing trailing zeros does not change the fraction written. -/
theorem eraseTrailingZeros_value (f : List Char) :
    (digitsValue (eraseTrailingZeros f) : ℚ) / ((10 ^ (eraseTrailingZeros f).length : ℕ) : ℚ)
      = (digitsValue f : ℚ) / ((10 ^ f.length : ℕ) : ℚ) := by
  have h := eraseTrailingZeros_value_aux f.reverse
  rw [List.reverse_reverse] at h
  exact h

/-- A run of characters of a class is taken whole. -/
theorem takeWhile_all (p : Char → Bool) (l : List Char) (h : ∀ c ∈ l, p c = true) :
    l.takeWhile p = l := by
  induction l with
  | nil => rfl
  | cons a l ih =>
    have ha : p a = true := h a (List.mem_cons_self _ _)
    simp [List.takeWhile, ha, ih (fun c hc => h c (List.mem_cons_of_mem _ hc))]

/-- A run of characters of a class is dropped whole. -/
theorem dropWhile_all (p : Char → Bool) (l : List Char) (h : ∀ c ∈ l, p c = true) :
    l.dropWhile p = [] := by
  induction l with
  | nil => rfl
  | cons a l ih =>
    have ha : p a = true := h a (List.mem_cons_self _ _)
    simp [List.dropWhile, ha, ih (fun c hc => h c (List.mem_cons_of_mem _ hc))]

/-- Taking a prefix stops at the first character outside the class. -/
theorem takeWhile_append_stop (p : Char → Bool) (x : Char) (hx : p x = false)
    (l r : List Char) (h : ∀ c ∈ l, p c = true) : (l ++ x :: r).takeWhile p = l := by
  induction l with
  | nil => simp [List.takeWhile, hx]
  | cons a l ih =>
    have ha : p a = true := h a (List.mem_cons_self _ _)
    simp [List.takeWhile, ha, ih (fun c hc => h c (List.mem_cons_of_mem _ hc))]

/-- Read as a decimal numeral, the short form of the fixed rendering of a
magnitude writes the scaled magnitude over `10^6`. -/
theorem readBack_shortText (scaled : Nat) :
    readBack (shortText false scaled) = (scaled : ℚ) / 10 ^ 6 := by
  have hW : ∀ c ∈ Nat.toDigits 10 (scaled / 10 ^ 6), isdigit c = true := toDigits_isdigit _
  have hE : ∀ c ∈ eraseTrailingZeros (fractionText scaled), isdigit c = true :=
    fun c hc => fixedDigits_isdigit _ _ c (eraseTrailingZeros_subset _ c hc)
  have hval : (digitsValue (eraseTrailingZeros (fractionText scaled)) : ℚ)
        / ((10 ^ (eraseTrailingZeros (fractionText scaled)).length : ℕ) : ℚ)
      = ((scaled % 10 ^ 6 : ℕ) : ℚ) / 10 ^ 6 := by
    rw [eraseTrailingZeros_value, fractionText, fixedDigits_length, fixedDigits_value,
      Nat.mod_mod]
    push_cast
    rfl
  have hsplit : (scaled : ℚ) = ((scaled / 10 ^ 6 : ℕ) : ℚ) * 10 ^ 6 + ((scaled % 10 ^ 6 : ℕ) : ℚ) := by
    have := Nat.div_add_mod scaled (10 ^ 6)
    have h2 : ((10 ^ 6 * (scaled / 10 ^ 6) + scaled % 10 ^ 6 : ℕ) : ℚ) = (scaled : ℚ) := by
      rw [this]
    rw [← h2]
    push_cast
    ring
  have hread : readBack (shortText false scaled)
      = (digitsValue (Nat.toDigits 10 (scaled / 10 ^ 6)) : ℚ)
        + (digitsValue (eraseTrailingZeros (fractionText scaled)) : ℚ)
          / ((10 ^ (eraseTrailingZeros (fractionText scaled)).length : ℕ) : ℚ) := by
    unfold shortText
    split
    · rename_i he
      rw [he]
      simp only [wholeText, readBack, decimalValue, if_neg Bool.false_ne_true, List.nil_append]
      rw [takeWhile_all _ _ hW, dropWhile_all _ _ hW]
      simp [fractionDigits, digitsValue]
    · simp only [wholeText, readBack, decimalValue, if_neg Bool.false_ne_true, List.nil_append]
      rw [takeWhile_append_stop _ '.' (by decide) _ _ hW,
        dropWhile_append_stop _ '.' (by decide), dropWhile_all _ _ hW]
      simp only [List.nil_append, fractionDigits]
      rw [takeWhile_all _ _ hE]
  rw [hread, hval, toDigits_value]
  rw [hsplit]
  field_simp

/-- The nearest integer to a quotient is within one half of it. -/
theorem halfEven_near (N D : Nat) (hD : 0 < D) :
    |(halfEven N D : ℚ) - (N : ℚ) / D| ≤ 1 / 2 := by
  have hDq : (0 : ℚ) < D := by exact_mod_cast hD
  have hN : (N : ℚ) = D * (N / D : ℕ) + (N % D : ℕ) := by
    exact_mod_cast (Nat.div_add_mod N D).symm
  have hdiv : (N : ℚ) / D = (N / D : ℕ) + ((N % D : ℕ) : ℚ) / D := by
    calc (N : ℚ) / D = ((D : ℚ) * (N / D : ℕ) + (N % D : ℕ)) / D := by rw [← hN]
      _ = (N / D : ℕ) + ((N % D : ℕ) : ℚ) / D := by
        field_simp
        ring
  have hrem : (N % D : ℕ) < D := Nat.mod_lt _ hD
  have hremq : ((N % D : ℕ) : ℚ) < D := by exact_mod_cast hrem
  have hrem0 : (0 : ℚ) ≤ ((N % D : ℕ) : ℚ) := by positivity
  rw [hdiv, abs_le]
  unfold halfEven
  simp only
  split
  · rename_i h
    have hq : 2 * ((N % D : ℕ) : ℚ) < D := by exact_mod_cast h
    have h1 : ((N % D : ℕ) : ℚ) / D ≤ 1 / 2 := by
      rw [div_le_iff₀ hDq]; linarith
    have h2 : 0 ≤ ((N % D : ℕ) : ℚ) / D := by positivity
    constructor <;> linarith
  · split
    · rename_i h
      have hq : (D : ℚ) < 2 * ((N % D : ℕ) : ℚ) := by exact_mod_cast h
      have h1 : 1 / 2 ≤ ((N % D : ℕ) : ℚ) / D := by
        rw [le_div_iff₀ hDq]; linarith
      have h2 : ((N % D : ℕ) : ℚ) / D ≤ 1 := by
        rw [div_le_iff₀ hDq]; linarith
      push_cast
      constructor <;> linarith
    · rename_i h1 h2
      have he : 2 * (N % D) = D := by omega
      have hq : 2 * ((N % D : ℕ) : ℚ) = D := by exact_mod_cast he
      have h3 : ((N % D : ℕ) : ℚ) / D = 1 / 2 := by
        rw [div_eq_iff hDq.ne']; linarith
      split
      · constructor <;> linarith
      · push_cast
        constructor <;> linarith

/-- The scaled magnitude is the nearest integer to the magnitude times `10^6`. -/
theorem scaled6_near (m : ℚ) (hm : 0 ≤ m) :
    |(scaled6 m : ℚ) / 10 ^ 6 - m| ≤ 1 / (2 * 10 ^ 6) := by
  have h := halfEven_near (m.num.natAbs * 10 ^ 6) m.den m.den_pos
  have hm2 := rat_eq_natAbs_div m hm
  have hq : ((m.num.natAbs * 10 ^ 6 : ℕ) : ℚ) / (m.den : ℚ) = m * 10 ^ 6 := by
    push_cast
    rw [mul_div_right_comm, hm2]
    norm_num
  rw [hq] at h
  have h6 : (0 : ℚ) < 10 ^ 6 := by positivity
  have e : (scaled6 m : ℚ) / 10 ^ 6 - m = ((scaled6 m : ℚ) - m * 10 ^ 6) / 10 ^ 6 := by
    field_simp
    ring
  rw [e, abs_div, abs_of_pos h6, div_le_iff₀ h6]
  have : (1 : ℚ) / (2 * 10 ^ 6) * 10 ^ 6 = 1 / 2 := by norm_num
  rw [this]
  exact h

/-- C18. Number formatting keeps integers intact: for every integer `n` that
a double holds, `formatNumber n` is the decimal numeral of `n`, without a
decimal point (10, 100 and 0 format as `10`, `100` and `0`, the negative zero
as `-0`, and the integer `12345678901234567890`, which no double holds, as
the numeral of the nearest double).  More generally, for every sign and
every magnitude `q`, the double nearest to it formats as `inf` after the sign
when it overflows, and otherwise as the six-decimal fixed rendering of its
magnitude without trailing fractional zeros and without a decimal point left
at the end: read as a decimal numeral, the text after the sign writes the
integer nearest to the magnitude times `10^6`, divided by `10^6`.  A NaN
formats as `nan` after the sign. -/
theorem formatNumber_keeps_integers (n : Int) (negative : Bool) (q : ℚ)
    (hn : Double.ofInt n = Double.finite (decide (n < 0)) (n.natAbs : ℚ)) :
    formatNumber (Double.ofInt n) = toString n ∧
    '.' ∉ (formatNumber (Double.ofInt n)).data ∧
    formatNumber 10 = "10" ∧ formatNumber 100 = "100" ∧ formatNumber 0 = "0" ∧
    formatNumber (-0) = "-0" ∧
    formatNumber (Double.ofInt 12345678901234567890) = "12345678901234567168" ∧
    formatNumber (Double.round negative q)
      = String.mk ((if negative then ['-'] else []) ++
          (if roundMagnitude q < overflowThreshold
            then shortText false (scaled6 (roundMagnitude q)) else ['i', 'n', 'f'])) ∧
    readBack (shortText false (scaled6 (roundMagnitude q)))
      = (scaled6 (roundMagnitude q) : ℚ) / 10 ^ 6 ∧
    |(scaled6 (roundMagnitude q) : ℚ) / 10 ^ 6 - roundMagnitude q| ≤ 1 / (2 * 10 ^ 6) ∧
    formatNumber (Double.nan negative)
      = String.mk ((if negative then ['-'] else []) ++ ['n', 'a', 'n']) := by
  have hfmt : formatNumber (Double.ofInt n)
      = String.mk ((if n < 0 then ['-'] else []) ++ Nat.toDigits 10 n.natAbs) := by
    rw [hn, formatNumber_natCast]
    by_cases h : n < 0 <;> simp [h]
  refine ⟨?_, ?_, by decide!, by decide!, by decide!, by decide!, by decide!, ?_,
    readBack_shortText _, scaled6_near _ (roundMagnitude_nonneg q), ?_⟩
  · rw [hfmt]
    cases n with
    | ofNat m =>
      have h : ¬ (Int.ofNat m < 0) := by simp
      rw [if_neg h]
      rfl
    | negSucc m =>
      have h : Int.negSucc m < 0 := Int.negSucc_lt_zero m
      rw [if_pos h]
      rfl
  · rw [hfmt]
    intro hmem
    simp only [List.mem_append] at hmem
    rcases hmem with hmem | hmem
    · split at hmem
      · simp at hmem
      · simp at hmem
    · have := toDigits_isdigit _ _ hmem
      revert this
      decide
  · unfold Double.round
    split
    · rw [formatNumber_short]
      cases negative
      · simp [shortText, wholeText]
      · simp only [shortText, wholeText]
        split <;> simp
    · cases negative <;> decide
  · cases negative <;> decide

/-- The integer `-12` is held by a double and formats as `-12`; the double
nearest to `0.05` formats as `0.05`, the text that writes `50000 / 10^6`. -/
theorem formatNumber_keeps_integers_witness :
    Double.ofInt (-12) = Double.finite (decide ((-12 : Int) < 0)) (((-12 : Int).natAbs : ℕ) : ℚ) ∧
    formatNumber (Double.ofInt (-12)) = toString (-12 : Int) ∧
    formatNumber (Double.round false (1 / 20)) = "0.05" ∧
    scaled6 (roundMagnitude (1 / 20)) = 50000 ∧
    readBack (shortText false (scaled6 (roundMagnitude (1 / 20))))
      = (scaled6 (roundMagnitude (1 / 20)) : ℚ) / 10 ^ 6 :=
  ⟨by decide!,
    (formatNumber_keeps_integers (-12) false (1 / 20) (by decide!)).1,
    by decide!, by decide!,
    (formatNumber_keeps_integers (-12) false (1 / 20) (by decide!)).2.2.2.2.2.2.2.2.1⟩

/-! ### tokenize -/

/-- At the end of the input an open number is emitted. -/
theorem tokenizeFrom_nil (current : String) (eu : Bool) :
    tokenizeFrom [] current eu = if current = "" then [] else [numTok current] := by
  simp [tokenizeFrom]

/-- Inside a number, a digit or `.` is appended to `current`. -/
theorem tokenizeFrom_append (c : Char) (cs : List Char) (current : String) (eu : Bool)
    (h1 : current ≠ "") (h2 : isNumberChar c = true) :
    tokenizeFrom (c :: cs) current eu = tokenizeFrom cs (current.push c) eu := by
  simp [tokenizeFrom, h1, h2]

/-- Inside a number, another character ends it: the Number token is emitted
and the scan goes on at that character with `expectUnary` false. -/
theorem tokenizeFrom_flush (c : Char) (cs : List Char) (current : String) (eu : Bool)
    (h1 : current ≠ "") (h2 : isNumberChar c = false) :
    tokenizeFrom (c :: cs) current eu = numTok current :: tokenizeFrom (c :: cs) "" false := by
  simp [tokenizeFrom, h1, h2]

/-- Outside a number, the six cases of the loop body. -/
theorem tokenizeFrom_start (c : Char) (cs : List Char) (eu : Bool) :
    tokenizeFrom (c :: cs) "" eu =
      if isspace c then tokenizeFrom cs "" eu
      else if eu = true ∧ (c = '+' ∨ c = '-') then
        opTok (if c = '-' then "u-" else "u+") :: tokenizeFrom cs "" false
      else if isNumberChar c then tokenizeFrom cs (String.singleton c) eu
      else if isalpha c then varTok (String.singleton c) :: tokenizeFrom cs "" false
      else if isOperatorChar c then
        opTok (String.singleton c) :: tokenizeFrom cs "" (unaryAfter c)
      else tokenizeFrom cs "" eu := by
  simp [tokenizeFrom]

/-- The empty text holds digits and `.` only. -/
theorem numText_empty : NumText "" := by
  intro ch h; simp at h

/-- The text of one digit or `.` holds digits and `.` only. -/
theorem numText_singleton (c : Char) (h : isNumberChar c = true) :
    NumText (String.singleton c) := by
  intro ch hch
  have : ch = c := by simpa [String.singleton] using hch
  rw [this]; exact h

/-- Appending a digit or `.` keeps a text of digits and `.`. -/
theorem numText_push (current : String) (c : Char) (hc : NumText current)
    (h : isNumberChar c = true) : NumText (current.push c) := by
  intro ch hch
  simp only [String.data_push, List.mem_append, List.mem_singleton] at hch
  rcases hch with hch | hch
  · exact hc ch hch
  · rw [hch]; exact h

/-- The text of one character is not empty. -/
theorem singleton_ne_empty (c : Char) : String.singleton c ≠ "" := by
  intro h
  have := congrArg String.data h
  simp [String.singleton] at this

/-- A text with a character appended is not empty. -/
theorem push_ne_empty (s : String) (c : Char) : s.push c ≠ "" := by
  intro h
  have := congrArg String.data h
  simp at this

/-- The Number token of a text of digits and `.` is no unary sign. -/
theorem numTok_not_unary (current : String) (h : NumText current) :
    isUnarySign (numTok current) = false := by
  have hu : isNumberChar 'u' = false := by decide
  have h1 : current ≠ "u-" := by
    intro he
    have := h 'u' (by rw [he]; decide)
    rw [hu] at this; exact Bool.noConfusion this
  have h2 : current ≠ "u+" := by
    intro he
    have := h 'u' (by rw [he]; decide)
    rw [hu] at this; exact Bool.noConfusion this
  simp [isUnarySign, numTok, h1, h2]

/-- A token whose text is one character is no unary sign. -/
theorem singleton_not_unary (c : Char) (a b d : Bool) :
    isUnarySign ⟨String.singleton c, a, b, d⟩ = false := by
  have h1 : String.singleton c ≠ "u-" := by
    intro h
    have := congrArg String.length h
    simp [String.singleton] at this
    exact absurd this (by decide)
  have h2 : String.singleton c ≠ "u+" := by
    intro h
    have := congrArg String.length h
    simp [String.singleton] at this
    exact absurd this (by decide)
  simp [isUnarySign, h1, h2]

/-- Adjacency in a sequence with one more token in front. -/
theorem noAdjacent_cons (r : Token → Token → Bool) (a : Token) (ts : List Token) :
    noAdjacent r (a :: ts) = true ↔
      (∀ b, ts.head? = some b → r a b = false) ∧ noAdjacent r ts = true := by
  cases ts with
  | nil => simp [noAdjacent]
  | cons b rest => simp [noAdjacent]

/-- The tokens scanned from any state hold no two unary signs in a row, and
begin with a unary sign only when one is expected and no number is open. -/
theorem tokenizeFrom_unary (cs : List Char) :
    ∀ (current : String) (eu : Bool), NumText current →
      noAdjacent bothUnary (tokenizeFrom cs current eu) = true ∧
      ∀ t, (tokenizeFrom cs current eu).head? = some t → isUnarySign t = true →
        eu = true ∧ current = "" := by
  induction cs with
  | nil =>
    intro current eu hn
    rw [tokenizeFrom_nil]
    split
    · simp [noAdjacent]
    · refine ⟨by simp [noAdjacent], ?_⟩
      intro t ht hu
      simp only [List.head?_cons, Option.some.injEq] at ht
      rw [← ht, numTok_not_unary current hn] at hu
      exact Bool.noConfusion hu
  | cons c cs ih =>
    have hstart : ∀ eu : Bool,
        noAdjacent bothUnary (tokenizeFrom (c :: cs) "" eu) = true ∧
        ∀ t, (tokenizeFrom (c :: cs) "" eu).head? = some t → isUnarySign t = true →
          eu = true ∧ ("" : String) = "" := by
      intro eu
      have hfalse := ih "" false numText_empty
      have hnohead : ∀ b, (tokenizeFrom cs "" false).head? = some b →
          isUnarySign b = false := by
        intro b hb
        cases hub : isUnarySign b with
        | false => rfl
        | true => exact absurd (hfalse.2 b hb hub).1 (by decide)
      rw [tokenizeFrom_start]
      split
      · exact ih "" eu numText_empty
      · split
        · rename_i hsign
          refine ⟨?_, fun _ _ _ => ⟨hsign.1, rfl⟩⟩
          rw [noAdjacent_cons]
          exact ⟨fun b hb => by simp [bothUnary, hnohead b hb], hfalse.1⟩
        · split
          · rename_i hnum
            have h := ih (String.singleton c) eu (numText_singleton c hnum)
            refine ⟨h.1, ?_⟩
            intro t ht hu
            exact absurd (h.2 t ht hu).2 (singleton_ne_empty c)
          · split
            · refine ⟨?_, ?_⟩
              · rw [noAdjacent_cons]
                exact ⟨fun b hb => by simp [bothUnary, hnohead b hb], hfalse.1⟩
              · intro t ht hu
                simp only [List.head?_cons, Option.some.injEq] at ht
                rw [← ht, varTok, singleton_not_unary] at hu
                exact Bool.noConfusion hu
            · split
              · have h := ih "" (unaryAfter c) numText_empty
                refine ⟨?_, ?_⟩
                · rw [noAdjacent_cons]
                  refine ⟨fun b hb => ?_, h.1⟩
                  simp [bothUnary, opTok, singleton_not_unary]
                · intro t ht hu
                  simp only [List.head?_cons, Option.some.injEq] at ht
                  rw [← ht, opTok, singleton_not_unary] at hu
                  exact Bool.noConfusion hu
              · exact ih "" eu numText_empty
    intro current eu hn
    by_cases hcur : current = ""
    · subst hcur
      exact hstart eu
    · by_cases hnum : isNumberChar c = true
      · rw [tokenizeFrom_append c cs current eu hcur hnum]
        have h := ih (current.push c) eu (numText_push current c hn hnum)
        refine ⟨h.1, ?_⟩
        intro t ht hu
        exact absurd (h.2 t ht hu).2 (push_ne_empty current c)
      · have hnum2 : isNumberChar c = false := by simpa using hnum
        rw [tokenizeFrom_flush c cs current eu hcur hnum2]
        have h := hstart false
        refine ⟨?_, ?_⟩
        · rw [noAdjacent_cons]
          refine ⟨fun b hb => ?_, h.1⟩
          simp [bothUnary, numTok_not_unary current hn]
        · intro t ht hu
          simp only [List.head?_cons, Option.some.injEq] at ht
          rw [← ht, numTok_not_unary current hn] at hu
          exact Bool.noConfusion hu

/-- C16. For every input string, `tokenize` never returns two adjacent
unary-sign tokens: no `u+`/`u-` token is immediately followed by another. -/
theorem tokenize_no_adjacent_unary (s : String) :
    noAdjacent bothUnary (tokenize s) = true :=
  (tokenizeFrom_unary s.data "" true numText_empty).1

/-! ### Unary signs -/

/-- The flag is unchanged when no token is emitted. -/
theorem flagAfter_nil (eu : Bool) : flagAfter [] eu = eu := rfl

/-- The flag after a token and further tokens is the one the further tokens leave. -/
theorem flagAfter_cons (x : Token) (ys : List Token) (eu : Bool) :
    flagAfter (x :: ys) eu = flagAfter ys (expectsUnaryAfter (some x)) := by
  cases h : ys.getLast? with
  | none =>
    have : ys = [] := by simpa using h
    subst this
    simp [flagAfter]
  | some z =>
    simp [flagAfter, List.getLast?_cons, h]

/-- The texts of one character are equal when the characters are. -/
theorem singleton_eq_iff (c d : Char) : String.singleton c = String.singleton d ↔ c = d := by
  constructor
  · intro h
    have := congrArg String.data h
    simpa [String.singleton] using this
  · intro h; rw [h]

/-- After an operator character the flag is the value assigned at lines 60-61. -/
theorem expectsUnaryAfter_operator (c : Char) :
    expectsUnaryAfter (some (opTok (String.singleton c))) = unaryAfter c := by
  have e1 : ("(" : String) = String.singleton '(' := rfl
  have e2 : ("+" : String) = String.singleton '+' := rfl
  have e3 : ("-" : String) = String.singleton '-' := rfl
  have e4 : ("*" : String) = String.singleton '*' := rfl
  have e5 : ("/" : String) = String.singleton '/' := rfl
  have e6 : ("^" : String) = String.singleton '^' := rfl
  simp only [expectsUnaryAfter, opTok, unaryAfter, Bool.true_and, e1, e2, e3, e4, e5, e6,
    singleton_eq_iff]

/-- After a unary sign no further unary sign is expected. -/
theorem expectsUnaryAfter_unary (c : Char) :
    expectsUnaryAfter (some (opTok (if c = '-' then "u-" else "u+"))) = false := by
  split <;> decide

/-- Up to a character that is no digit and no `.`, the scan emits the tokens
of the prefix; it goes on with `expectUnary` as the last token leaves it. -/
theorem tokenizeFrom_prefix (pre : List Char) (c : Char) (post : List Char)
    (hc : isNumberChar c = false) :
    ∀ (current : String) (eu : Bool),
      tokenizeFrom (pre ++ c :: post) current eu
        = tokenizeFrom pre current eu ++
          tokenizeFrom (c :: post) "" (flagAfter (tokenizeFrom pre current eu) eu) := by
  induction pre with
  | nil =>
    intro current eu
    by_cases hcur : current = ""
    · subst hcur
      simp [tokenizeFrom_nil, flagAfter_nil]
    · rw [List.nil_append, tokenizeFrom_flush c post current eu hcur hc, tokenizeFrom_nil,
        if_neg hcur]
      simp [flagAfter_cons, flagAfter_nil, expectsUnaryAfter, numTok]
  | cons p pre ih =>
    have hstart : ∀ eu : Bool,
        tokenizeFrom (p :: pre ++ c :: post) "" eu
          = tokenizeFrom (p :: pre) "" eu ++
            tokenizeFrom (c :: post) "" (flagAfter (tokenizeFrom (p :: pre) "" eu) eu) := by
      intro eu
      rw [List.cons_append, tokenizeFrom_start, tokenizeFrom_start p pre]
      split
      · exact ih "" eu
      · split
        · rw [ih "" false, flagAfter_cons, expectsUnaryAfter_unary]
          rfl
        · split
          · exact ih _ eu
          · split
            · rw [ih "" false, flagAfter_cons]
              rfl
            · split
              · rw [ih "" (unaryAfter p), flagAfter_cons, expectsUnaryAfter_operator]
                rfl
              · exact ih "" eu
    intro current eu
    by_cases hcur : current = ""
    · subst hcur
      exact hstart eu
    · by_cases hnum : isNumberChar p = true
      · rw [List.cons_append, tokenizeFrom_append p _ current eu hcur hnum,
          tokenizeFrom_append p pre current eu hcur hnum]
        exact ih _ eu
      · have hnum2 : isNumberChar p = false := by simpa using hnum
        have h := hstart false
        rw [List.cons_append] at h
        rw [List.cons_append, tokenizeFrom_flush p _ current eu hcur hnum2,
          tokenizeFrom_flush p pre current eu hcur hnum2, h, flagAfter_cons]
        rfl

/-- C14. Unary-sign disambiguation: in any input, a `+` or `-` that follows
the prefix `pre` is emitted right after the tokens of `pre`, as the unary token
`u+`/`u-` when no token was emitted before it or the last one is one of the
operator tokens `(`, `+`, `-`, `*`, `/`, `^`, and as the binary operator token
otherwise; the decision depends on the emitted tokens only. -/
theorem sign_disambiguation (pre post : String) (c : Char) (hc : c = '+' ∨ c = '-') :
    tokenize (pre ++ String.singleton c ++ post)
      = tokenize pre ++
        opTok (if expectsUnaryAfter (tokenize pre).getLast? = true then
            (if c = '-' then "u-" else "u+") else String.singleton c) ::
          tokenizeFrom post.data "" (!expectsUnaryAfter (tokenize pre).getLast?) ∧
    isUnarySign (opTok (if expectsUnaryAfter (tokenize pre).getLast? = true then
        (if c = '-' then "u-" else "u+") else String.singleton c))
      = expectsUnaryAfter (tokenize pre).getLast? := by
  have hnum : isNumberChar c = false := by rcases hc with rfl | rfl <;> decide
  have hspace : isspace c = false := by rcases hc with rfl | rfl <;> decide
  have halpha : isalpha c = false := by rcases hc with rfl | rfl <;> decide
  have hop : isOperatorChar c = true := by rcases hc with rfl | rfl <;> decide
  have hafter : unaryAfter c = true := by rcases hc with rfl | rfl <;> decide
  have hflag : flagAfter (tokenize pre) true = expectsUnaryAfter (tokenize pre).getLast? := by
    unfold flagAfter
    cases (tokenize pre).getLast? <;> rfl
  have hdata : (pre ++ String.singleton c ++ post).data = pre.data ++ c :: post.data := by
    simp [String.singleton]
  constructor
  · rw [tokenize, hdata, tokenizeFrom_prefix pre.data c post.data hnum "" true]
    change tokenize pre ++ tokenizeFrom (c :: post.data) "" (flagAfter (tokenize pre) true) = _
    rw [hflag, tokenizeFrom_start]
    cases hf : expectsUnaryAfter (tokenize pre).getLast? with
    | true => simp [hspace, hc]
    | false => simp [hspace, hnum, halpha, hop, hafter]
  · cases hf : expectsUnaryAfter (tokenize pre).getLast? with
    | true =>
      rw [if_pos rfl]
      split <;> rfl
    | false =>
      rw [if_neg (by decide)]
      exact singleton_not_unary c true false false

/-- In `2*-x` the `-` follows the operator token `*` and is the unary `u-`. -/
theorem sign_disambiguation_witness :
    (tokenize ("2*" ++ String.singleton '-' ++ "x")
      = tokenize "2*" ++
        opTok (if expectsUnaryAfter (tokenize "2*").getLast? = true then
            (if '-' = '-' then "u-" else "u+") else String.singleton '-') ::
          tokenizeFrom "x".data "" (!expectsUnaryAfter (tokenize "2*").getLast?) ∧
      isUnarySign (opTok (if expectsUnaryAfter (tokenize "2*").getLast? = true then
          (if '-' = '-' then "u-" else "u+") else String.singleton '-'))
        = expectsUnaryAfter (tokenize "2*").getLast?) ∧
    tokenize "2*-x" = [numTok "2", opTok "*", opTok "u-", varTok "x"] ∧
    tokenize "2-x" = [numTok "2", opTok "-", varTok "x"] :=
  ⟨sign_disambiguation "2*" "x" '-' (Or.inr rfl), by decide, by decide⟩

/-! ### Lexemes -/

/-- The lexemes of an input from its first character. -/
theorem lexemes_cons (c : Char) (cs : List Char) :
    lexemes (c :: cs) =
      if isNumberChar c then
        numTok (String.mk (c :: cs.takeWhile isNumberChar)) ::
          lexemes (cs.dropWhile isNumberChar)
      else if isalpha c then varTok (String.singleton c) :: lexemes cs
      else if isOperatorChar c then opTok (String.singleton c) :: lexemes cs
      else lexemes cs := by
  rw [lexemes]

/-- The empty input has no lexeme. -/
theorem lexemes_nil : lexemes [] = [] := by
  rw [lexemes]

/-- A blank is none of the characters that make a token. -/
theorem space_unrecognized (c : Char) (h : isspace c = true) :
    isNumberChar c = false ∧ isalpha c = false ∧ isOperatorChar c = false := by
  have hn : c.toNat = 32 ∨ (9 ≤ c.toNat ∧ c.toNat ≤ 13) := by simpa [isspace] using h
  have key : ∀ d : Char, (d.toNat ≠ 32 ∧ ¬ (9 ≤ d.toNat ∧ d.toNat ≤ 13)) → c ≠ d := by
    rintro d hd rfl
    omega
  refine ⟨?_, ?_, ?_⟩
  · have h1 := key '.' (by decide)
    simp only [isNumberChar, isdigit, Bool.or_eq_false_iff, Bool.and_eq_false_iff,
      decide_eq_false_iff_not]
    exact ⟨by omega, h1⟩
  · simp only [isalpha, Bool.or_eq_false_iff, Bool.and_eq_false_iff, decide_eq_false_iff_not]
    omega
  · simp only [isOperatorChar, Bool.or_eq_false_iff, decide_eq_false_iff_not]
    exact ⟨⟨⟨⟨⟨⟨key '^' (by decide), key '*' (by decide)⟩, key '/' (by decide)⟩,
      key '+' (by decide)⟩, key '-' (by decide)⟩, key '(' (by decide)⟩, key ')' (by decide)⟩

/-- The text of one character is neither `u-` nor `u+`. -/
theorem singleton_ne_unary (c : Char) :
    String.singleton c ≠ "u-" ∧ String.singleton c ≠ "u+" := by
  constructor <;>
  · intro h
    have := congrArg String.length h
    simp [String.singleton] at this
    exact absurd this (by decide)

/-- A text of digits and `.` is neither `u-` nor `u+`. -/
theorem numText_ne_unary (current : String) (h : NumText current) :
    current ≠ "u-" ∧ current ≠ "u+" := by
  have hu : isNumberChar 'u' = false := by decide
  constructor <;>
  · intro he
    have := h 'u' (by rw [he]; decide)
    rw [hu] at this
    exact Bool.noConfusion this

/-- The text of one character is written back unchanged. -/
theorem writtenBack_singleton (c : Char) :
    writtenBack (String.singleton c) = String.singleton c := by
  simp [writtenBack, singleton_ne_unary c]

/-- The written-back text of one character is that character. -/
theorem writtenBack_singleton_data (c : Char) :
    (writtenBack (String.singleton c)).data = [c] := by
  rw [writtenBack_singleton]; rfl

/-- A text of digits and `.` is written back unchanged. -/
theorem writtenBack_numText (current : String) (h : NumText current) :
    writtenBack current = current := by
  simp [writtenBack, numText_ne_unary current h]

/-- A unary sign is written back as its sign character. -/
theorem writtenBack_sign (c : Char) (hc : c = '+' ∨ c = '-') :
    writtenBack (if c = '-' then "u-" else "u+") = String.singleton c := by
  rcases hc with rfl | rfl <;> decide

/-- The signs `+` and `-` are operator characters, not digits, `.` or letters. -/
theorem sign_classes (c : Char) (hc : c = '+' ∨ c = '-') :
    isNumberChar c = false ∧ isalpha c = false ∧ isOperatorChar c = true := by
  rcases hc with rfl | rfl <;> decide

/-- From any state, the scan emits the lexemes of the rest of the input, the
first one continuing the number that is open. -/
theorem tokenizeFrom_lexemes (cs : List Char) :
    ∀ (current : String) (eu : Bool), NumText current →
      (tokenizeFrom cs current eu).map plainSign =
        if current = "" then lexemes cs
        else numTok (String.mk (current.data ++ cs.takeWhile isNumberChar)) ::
          lexemes (cs.dropWhile isNumberChar) := by
  induction cs with
  | nil =>
    intro current eu hn
    rw [tokenizeFrom_nil]
    split
    · simp [lexemes_nil]
    · simp [lexemes_nil, plainSign, numTok, writtenBack_numText current hn]
  | cons c cs ih =>
    have hstart : ∀ eu : Bool,
        (tokenizeFrom (c :: cs) "" eu).map plainSign = lexemes (c :: cs) := by
      intro eu
      have h0 : ∀ eu, (tokenizeFrom cs "" eu).map plainSign = lexemes cs := by
        intro eu
        have := ih "" eu numText_empty
        simpa using this
      rw [tokenizeFrom_start, lexemes_cons]
      split
      · rename_i hsp
        obtain ⟨h1, h2, h3⟩ := space_unrecognized c hsp
        simp [h1, h2, h3, h0]
      · split
        · rename_i hsign
          obtain ⟨h1, h2, h3⟩ := sign_classes c hsign.2
          simp [h1, h2, h3, h0, plainSign, opTok, writtenBack_sign c hsign.2]
        · split
          · rename_i hnum
            have := ih (String.singleton c) eu (numText_singleton c hnum)
            rw [if_neg (singleton_ne_empty c)] at this
            rw [this]
            rfl
          · split
            · simp [h0, plainSign, varTok, writtenBack_singleton]
            · split
              · simp [h0, plainSign, opTok, writtenBack_singleton]
              · exact h0 eu
    intro current eu hn
    by_cases hcur : current = ""
    · subst hcur
      simpa using hstart eu
    · rw [if_neg hcur]
      by_cases hnum : isNumberChar c = true
      · rw [tokenizeFrom_append c cs current eu hcur hnum,
          ih _ eu (numText_push current c hn hnum), if_neg (push_ne_empty current c)]
        simp [List.takeWhile, List.dropWhile, hnum]
      · have hnum2 : isNumberChar c = false := by simpa using hnum
        rw [tokenizeFrom_flush c cs current eu hcur hnum2, List.map_cons, hstart false]
        simp [List.takeWhile, List.dropWhile, hnum2, plainSign, numTok,
          writtenBack_numText current hn]

/-- From any state, the written-back texts of the emitted tokens spell the
open number followed by the recognized characters of the rest. -/
theorem tokenizeFrom_sourceText (cs : List Char) :
    ∀ (current : String) (eu : Bool), NumText current →
      sourceText (tokenizeFrom cs current eu) = current.data ++ cs.filter isRecognized := by
  induction cs with
  | nil =>
    intro current eu hn
    rw [tokenizeFrom_nil]
    split
    · rename_i h; subst h; rfl
    · simp [sourceText, numTok, writtenBack_numText current hn]
  | cons c cs ih =>
    have hstart : ∀ eu : Bool,
        sourceText (tokenizeFrom (c :: cs) "" eu) = (c :: cs).filter isRecognized := by
      intro eu
      have h0 : ∀ eu, sourceText (tokenizeFrom cs "" eu) = cs.filter isRecognized := by
        intro eu
        have := ih "" eu numText_empty
        simpa using this
      have hcons : ∀ (t : Token) (ts : List Token),
          sourceText (t :: ts) = (writtenBack t.value).data ++ sourceText ts := by
        intro t ts; simp [sourceText]
      rw [tokenizeFrom_start]
      split
      · rename_i hsp
        obtain ⟨h1, h2, h3⟩ := space_unrecognized c hsp
        simp [isRecognized, h1, h2, h3, h0]
      · split
        · rename_i hsign
          obtain ⟨h1, h2, h3⟩ := sign_classes c hsign.2
          simp [hcons, isRecognized, h1, h2, h3, h0, opTok, writtenBack_sign c hsign.2,
            String.singleton]
        · split
          · rename_i hnum
            rw [ih (String.singleton c) eu (numText_singleton c hnum)]
            simp [isRecognized, hnum, String.singleton]
          · rename_i hnum
            split
            · rename_i hal
              simp [hcons, isRecognized, hal, h0, varTok, writtenBack_singleton_data]
            · rename_i hal
              split
              · rename_i hop
                simp [hcons, isRecognized, hop, h0, opTok, writtenBack_singleton_data]
              · rename_i hop
                simp [isRecognized, hnum, hal, hop, h0]
    intro current eu hn
    by_cases hcur : current = ""
    · subst hcur
      simpa using hstart eu
    · by_cases hnum : isNumberChar c = true
      · rw [tokenizeFrom_append c cs current eu hcur hnum,
          ih _ eu (numText_push current c hn hnum)]
        simp [isRecognized, hnum]
      · have hnum2 : isNumberChar c = false := by simpa using hnum
        rw [tokenizeFrom_flush c cs current eu hcur hnum2]
        have hs := hstart false
        simp only [sourceText, List.map_cons, List.flatten_cons] at hs ⊢
        rw [hs]
        simp [numTok, writtenBack_numText current hn]

/-- C13. Tokenization is lossless on recognized characters: the written-back
texts of `tokenize s` spell `s` without its unrecognized characters, and the
tokens are, up to the marking of unary signs, the lexemes of `s`: one Number
token for each maximal run of digits and `.`, one Variable token for each
letter and one Operator token for each operator character. -/
theorem tokenize_lossless (s : String) :
    sourceText (tokenize s) = s.data.filter isRecognized ∧
    (tokenize s).map plainSign = lexemes s.data ∧
    tokenize "6*x" = [numTok "6", opTok "*", varTok "x"] := by
  refine ⟨?_, ?_, by decide⟩
  · have := tokenizeFrom_sourceText s.data "" true numText_empty
    simpa [tokenize] using this
  · have := tokenizeFrom_lexemes s.data "" true numText_empty
    simpa [tokenize] using this

/-! ### The empty token sequence -/

/-- An input of unrecognized characters only has no lexeme. -/
theorem lexemes_unrecognized (cs : List Char) (h : ∀ c ∈ cs, isRecognized c = false) :
    lexemes cs = [] := by
  induction cs with
  | nil => exact lexemes_nil
  | cons c cs ih =>
    have hc := h c (List.mem_cons_self _ _)
    simp only [isRecognized, Bool.or_eq_false_iff] at hc
    rw [lexemes_cons]
    simp [hc.1.1, hc.1.2, hc.2, ih (fun d hd => h d (List.mem_cons_of_mem _ hd))]

/-- An input of whitespace and unrecognized characters only has no token. -/
theorem tokenize_unrecognized (s : String) (h : ∀ c ∈ s.data, isRecognized c = false) :
    tokenize s = [] := by
  have h1 := tokenizeFrom_lexemes s.data "" true numText_empty
  rw [if_pos rfl, lexemes_unrecognized s.data h] at h1
  simpa [tokenize] using h1

/-- C12. Boundary case: when `tokenize s` is the empty sequence, which is the
case exactly when `s` holds only whitespace and unrecognized characters, the
printed result `tokensToString (integrateExpression (tokenize s) 'x')` is `0`. -/
theorem empty_tokens_render_zero (s : String) (h : tokenize s = []) :
    (integrateExpression (tokenize s) 'x').map tokensToString = Except.ok "0" ∧
    ∀ c ∈ s.data, isRecognized c = false := by
  constructor
  · rw [h]; decide
  · have h1 := tokenizeFrom_sourceText s.data "" true numText_empty
    have h2 : tokenizeFrom s.data "" true = [] := h
    rw [h2] at h1
    have h3 : s.data.filter isRecognized = [] := by simpa [sourceText] using h1.symm
    rw [List.filter_eq_nil_iff] at h3
    intro c hc
    simpa using h3 c hc

/-- The empty-token case on a blank, a tab and a `#`. -/
theorem empty_tokens_render_zero_witness :
    tokenize " \t#" = [] ∧
    (integrateExpression (tokenize " \t#") 'x').map tokensToString = Except.ok "0" ∧
    ∀ c ∈ " \t#".data, isRecognized c = false :=
  ⟨tokenize_unrecognized " \t#" (by decide), empty_tokens_render_zero " \t#" (by decide)⟩

/-! ### Split and rejoin -/

/-- A negative well-formed term is `u-` followed by a non-empty body. -/
theorem wellFormed_negative {term : List Token} (h : WellFormedTerm term)
    (hneg : isNegativeTerm term = true) :
    term = unaryMinus :: term.drop 1 ∧ term.drop 1 ≠ [] ∧ NoBoundary (term.drop 1) := by
  obtain ⟨hnb, hne, hs⟩ := h
  cases term with
  | nil => exact absurd rfl hne
  | cons t rest =>
    have hv : t.value = "u-" := by simpa [isNegativeTerm] using hneg
    simp only [signHasOperand, hv, if_true, Bool.and_eq_true, decide_eq_true_eq,
      Bool.not_eq_true', List.isEmpty_eq_false] at hs
    refine ⟨by simp [hs.1], by simpa using hs.2, ?_⟩
    intro x hx
    exact hnb x (List.mem_cons_of_mem _ (by simpa using hx))

/-- After a first term, splitting the rejoined terms gives them back. -/
theorem split_rejoinFrom (T : List (List Token)) :
    (∀ term ∈ T, WellFormedTerm term) →
    ∀ (acc : List (List Token)) (cur sign : List Token), cur ≠ [] →
      splitInfixTermsLoop (rejoinFrom false T) acc cur sign = acc ++ [sign ++ cur] ++ T := by
  induction T with
  | nil =>
    intro _ acc cur sign hcur
    simp [rejoinFrom, splitInfixTermsLoop, flushTerm_of_ne_nil acc hcur sign]
  | cons term rest ih =>
    intro hT acc cur sign hcur
    have hterm := hT term (List.mem_cons_self _ _)
    have hrest : ∀ u ∈ rest, WellFormedTerm u := fun u hu => hT u (List.mem_cons_of_mem _ hu)
    cases hneg : isNegativeTerm term with
    | true =>
      obtain ⟨he, hne, hnb⟩ := wellFormed_negative hterm hneg
      have hminus : (opTok "-").value = "+" ∨ (opTok "-").value = "-" := Or.inr rfl
      have hm : (opTok "-").value = "-" := rfl
      simp only [rejoinFrom, hneg, if_true, List.cons_append]
      rw [splitInfixTermsLoop, if_pos hminus, if_pos hm, List.append_assoc,
        splitLoop_noBoundary _ hnb, List.nil_append, ih hrest _ _ _ hne,
        flushTerm_of_ne_nil acc hcur sign]
      rw [List.singleton_append, ← he]
      simp
    | false =>
      obtain ⟨hnb, hne, _⟩ := hterm
      have hplus : (opTok "+").value = "+" ∨ (opTok "+").value = "-" := Or.inl rfl
      have hp : ¬ (opTok "+").value = "-" := by decide
      simp only [rejoinFrom, hneg, Bool.false_eq_true, if_false, List.cons_append]
      rw [splitInfixTermsLoop, if_pos hplus, if_neg hp,
        splitLoop_noBoundary _ hnb, List.nil_append, ih hrest _ _ _ hne,
        flushTerm_of_ne_nil acc hcur sign]
      simp

/-- Splitting the rejoined terms gives them back. -/
theorem split_rejoin (T : List (List Token)) (hT : ∀ term ∈ T, WellFormedTerm term) :
    splitInfixTerms (rejoin T) = T := by
  cases T with
  | nil => rfl
  | cons term rest =>
    have hterm := hT term (List.mem_cons_self _ _)
    have hrest : ∀ u ∈ rest, WellFormedTerm u := fun u hu => hT u (List.mem_cons_of_mem _ hu)
    cases hneg : isNegativeTerm term with
    | true =>
      obtain ⟨he, hne, hnb⟩ := wellFormed_negative hterm hneg
      have hminus : (opTok "-").value = "+" ∨ (opTok "-").value = "-" := Or.inr rfl
      have hm : (opTok "-").value = "-" := rfl
      simp only [splitInfixTerms, rejoin, rejoinFrom, hneg, if_true, List.cons_append]
      rw [splitInfixTermsLoop, if_pos hminus, if_pos hm,
        splitLoop_noBoundary _ hnb, List.nil_append, split_rejoinFrom rest hrest _ _ _ hne]
      rw [List.singleton_append, ← he]
      simp [flushTerm]
    | false =>
      obtain ⟨hnb, hne, _⟩ := hterm
      simp only [splitInfixTerms, rejoin, rejoinFrom, hneg, Bool.false_eq_true, if_false,
        if_true]
      rw [splitLoop_noBoundary _ hnb, List.nil_append, split_rejoinFrom rest hrest _ _ _ hne]
      simp

/-- Counterexample to C11. The input `-` is one term, the sign alone; the
rejoined sequence is the binary `-`, which splits into no term, and the
printed results differ. -/
theorem sign_alone_is_lost :
    splitInfixTerms (tokenize "-") = [[opTok "u-"]] ∧
    rejoin (splitInfixTerms (tokenize "-")) = [opTok "-"] ∧
    splitInfixTerms (rejoin (splitInfixTerms (tokenize "-"))) = [] ∧
    (integrateExpression (tokenize "-") 'x').map tokensToString = Except.ok "-0" ∧
    (integrateExpression (rejoin (splitInfixTerms (tokenize "-"))) 'x').map tokensToString
      = Except.ok "0" := by
  refine ⟨by decide, by decide, by decide, by decide!, by decide!⟩

/-- C11, amended. Split/rejoin round trip: for every token sequence `t` in
which each term that begins with a `u-` begins with the operator token `u-`
and holds at least one more token, splitting the rejoined terms of
`splitInfixTerms t` returns the same list of terms, and `integrateExpression`
gives the same result on the rejoined sequence as on `t`. -/
theorem split_rejoin_round_trip (t : List Token) (x : Char)
    (h : ∀ term ∈ splitInfixTerms t, signHasOperand term = true) :
    splitInfixTerms (rejoin (splitInfixTerms t)) = splitInfixTerms t ∧
    integrateExpression (rejoin (splitInfixTerms t)) x = integrateExpression t x := by
  have hwf : ∀ term ∈ splitInfixTerms t, WellFormedTerm term := by
    intro term hmem
    have := splitLoop_terms t [] [] [] (by simp) (by intro y hy; simp at hy)
      (by intro y hy; simp at hy) term hmem
    exact ⟨this.1, this.2, h term hmem⟩
  have hs := split_rejoin (splitInfixTerms t) hwf
  exact ⟨hs, by rw [integrateExpression, hs]; rfl⟩

/-- The round trip on `2*x-5+-3`: the terms are `2*x`, `u- 5` and `u- 3`. -/
theorem split_rejoin_round_trip_witness :
    (∀ term ∈ splitInfixTerms (tokenize "2*x-5+-3"), signHasOperand term = true) ∧
    splitInfixTerms (rejoin (splitInfixTerms (tokenize "2*x-5+-3")))
      = splitInfixTerms (tokenize "2*x-5+-3") ∧
    integrateExpression (rejoin (splitInfixTerms (tokenize "2*x-5+-3"))) 'x'
      = integrateExpression (tokenize "2*x-5+-3") 'x' :=
  ⟨by decide, split_rejoin_round_trip (tokenize "2*x-5+-3") 'x' (by decide)⟩

end Integration
